import Mathlib

/-!
# BigInt: arbitrary-precision unsigned integers on 32-bit limbs

A shallow embedding of `src/BigInt.cpp`.

* `vector<uint32_t> chunks` is a `List Nat`, least-significant limb first.  A limb of a
  well-formed input is below `2^32`; the casts `(uint32_t)(..)` and the masks `& 0xFFFFFFFF`
  of the source are kept in the definitions.
* `std::string` is a `List Char`.
* A `throw` is an `Except.error`.  An index outside a vector (undefined behaviour in C++)
  is the error `outOfBounds`.  A `while` loop whose trip count is not bounded by a
  container is run with a fuel argument and yields `outOfFuel` when the fuel is used up.
* Vector lengths, loop indices and bit counts (`size_t`, `int`) are natural numbers: a
  vector with `2^26` limbs or more is outside the model.
* The text written to `cout` is not modelled; the calls that compute it (`to_decimal` in
  `modInverse`) are.
* `pop_back` shortens a vector and leaves its buffer as written.  The one place where the
  program depends on it is the read `r.chunks[0]` of `to_decimal`: `to_decimal` checks the
  index against the size of the vector, `to_decimalBuffer` does the read on the buffer.
-/

namespace BigInt

/-- The ways a call can fail. -/
inductive Error where
  /-- The exception `runtime_error("Subtraction would result in a negative value")`. -/
  | underflow
  /-- The exception `invalid_argument("Modular Inverse requires non-zero modulus")`. -/
  | invalidModulus
  /-- The exception `runtime_error("Modular inverse does not exist")`. -/
  | inverseDoesNotExist
  /-- The exception `runtime_error("inverse does not exist; gcd(a,m) != 1")`. -/
  | notCoprime
  /-- The exception `std::length_error` of a vector asked to grow beyond its maximal size. -/
  | lengthError
  /-- An index outside a vector: undefined behaviour in the source. -/
  | outOfBounds
  /-- The loop did not end within the fuel given. -/
  | outOfFuel
  deriving DecidableEq

end BigInt

/-- The limb vector `chunks` of the `struct BigInt`, least-significant limb first. -/
abbrev BigInt := List Nat

deriving instance DecidableEq for Except

namespace BigInt

/-- The number a limb sequence stands for. -/
def val : BigInt → Nat
  | [] => 0
  | c :: cs => c + 2 ^ 32 * val cs

/-- Canonical form: every limb fits 32 bits and the most-significant limb is not zero
(the empty sequence is zero). -/
def Canonical (x : BigInt) : Prop :=
  (∀ c ∈ x, c < 2 ^ 32) ∧ x.getLast? ≠ some 0

instance (x : BigInt) : Decidable (Canonical x) := by
  unfold Canonical; infer_instance

/-- The function `normalize`: pop most-significant zero limbs. -/
def normalize (chunks : BigInt) : BigInt :=
  chunks.rdropWhile (fun c => c == 0)

/-- The loop of the constructor `BigInt(uint64_t value)`; a 64-bit value is exhausted
after two rounds. -/
def ofU64Loop : Nat → Nat → BigInt
  | 0, _ => []
  | fuel + 1, value =>
    if value > 0 then (value &&& 0xFFFFFFFF) % 2 ^ 32 :: ofU64Loop fuel (value >>> 32)
    else []

/-- The constructor `BigInt(uint64_t value)`. -/
def ofU64 (value : Nat) : BigInt :=
  normalize (ofU64Loop 2 (value % 2 ^ 64))

/-- The function `is_zero`. -/
def is_zero (x : BigInt) : Bool :=
  x.isEmpty

/-- The scan of `compare` from the most-significant limb down, on the two limb
sequences listed most-significant first. -/
def compareLoop : List Nat → List Nat → Int
  | a :: as, b :: bs => if a ≠ b then (if a < b then -1 else 1) else compareLoop as bs
  | _, _ => 0

/-- The function `compare(a, b)`: -1, 0 or 1. -/
def compare (a b : BigInt) : Int :=
  if a.length ≠ b.length then (if a.length < b.length then -1 else 1)
  else compareLoop a.reverse b.reverse

/-- The loop of `add` over `i < n`, the limbs of `a` and `b` from index `i` on and the
running carry; a final carry is pushed. -/
def addLoop : Nat → BigInt → BigInt → Nat → BigInt
  | 0, _, _, carry => if carry ≠ 0 then [carry % 2 ^ 32] else []
  | n + 1, a, b, carry =>
    let a_chunk := a.headD 0
    let b_chunk := b.headD 0
    let sum := a_chunk + b_chunk + carry
    (sum &&& 0xFFFFFFFF) % 2 ^ 32 :: addLoop n a.tail b.tail (sum >>> 32)

/-- The function `add(a, b)`. -/
def add (a b : BigInt) : BigInt :=
  addLoop (max a.length b.length) a b 0

/-- The loop of `subtract` over the limbs of `a` with the signed borrow. -/
def subtractLoop : BigInt → BigInt → Int → BigInt
  | [], _, _ => []
  | a_chunk :: as, b, borrow =>
    let b_chunk : Int := b.headD 0
    let diff : Int := a_chunk - b_chunk + borrow
    if diff < 0 then ((diff + 2 ^ 32) % 2 ^ 32).toNat :: subtractLoop as b.tail (-1)
    else (diff % 2 ^ 32).toNat :: subtractLoop as b.tail 0

/-- The function `subtract(a, b)`: throws when `a < b`. -/
def subtract (a b : BigInt) : Except Error BigInt :=
  if compare a b < 0 then .error .underflow
  else .ok (normalize (subtractLoop a b 0))

/-- The loop of `shr1` on the limbs listed most-significant first. -/
def shr1Loop : List Nat → Nat → List Nat
  | [], _ => []
  | c :: cs, carry =>
    let cur := c ||| (carry <<< 32)
    (cur >>> 1) % 2 ^ 32 :: shr1Loop cs ((cur &&& 1) % 2 ^ 32)

/-- The function `shr1(x)`: one-bit right shift. -/
def shr1 (x : BigInt) : BigInt :=
  normalize (shr1Loop x.reverse 0).reverse

/-- The function `is_even`. -/
def is_even (x : BigInt) : Bool :=
  if is_zero x then true else (x.headD 0 &&& 1) == 0

/-- The function `is_one`. -/
def is_one (x : BigInt) : Bool :=
  x.length == 1 && x.headD 0 == 1

/-- The loop of `shlBits` over the limbs with the running carry. -/
def shlBitsLoop : BigInt → Nat → Nat → BigInt
  | [], _, carry => if carry ≠ 0 then [carry % 2 ^ 32] else []
  | c :: cs, bitShift, carry =>
    let cur := ((c <<< bitShift) % 2 ^ 64) ||| carry
    (cur &&& 0xffffffff) % 2 ^ 32 :: shlBitsLoop cs bitShift (cur >>> 32)

/-- The function `shlBits(k)`: k-bit left shift. -/
def shlBits (x : BigInt) (k : Nat) : BigInt :=
  if is_zero x then []
  else List.replicate (k / 32) 0 ++ shlBitsLoop x (k % 32) 0

/-- Count the zero bits of `x` from bit `n - 1` down to the first bit that is set. -/
def clzLoop : Nat → Nat → Nat
  | 0, _ => 0
  | n + 1, x => if 2 ^ n ≤ x then 0 else clzLoop n x + 1

/-- The builtin `__builtin_clz` on a 32-bit word: the number of leading zero bits.  The builtin is
undefined at zero, where this gives 32. -/
def clz (x : Nat) : Nat :=
  clzLoop 32 x

/-- The function `bitLength`: 0 for zero. -/
def bitLength (x : BigInt) : Nat :=
  if is_zero x then 0
  else (x.length - 1) * 32 + (32 - clz (x.getLastD 0))

/-- The trailing `while (carry > 0)` of `mul`, on the limbs of `result` from `idx` on. -/
def mulCarryLoop : Nat → List Nat → Except Error (List Nat)
  | carry, [] => if carry > 0 then .error .outOfBounds else .ok []
  | carry, r :: rs =>
    if carry > 0 then
      let cur := (r + carry) % 2 ^ 64
      (mulCarryLoop (cur >>> 32) rs).map (fun t => (cur &&& 0xFFFFFFFF) % 2 ^ 32 :: t)
    else .ok (r :: rs)

/-- The inner loop of `mul` over `j`: the limbs of `b` from `j` on, the limbs of
`result` from `i + j` on, and the carry; it ends in the carry loop. -/
def mulInnerLoop (a_chunk : Nat) : List Nat → List Nat → Nat → Except Error (List Nat)
  | [], res, carry => mulCarryLoop carry res
  | _ :: _, [], _ => .error .outOfBounds
  | b_chunk :: bs, r :: rs, carry =>
    let cur := (r + a_chunk * b_chunk + carry) % 2 ^ 64
    (mulInnerLoop a_chunk bs rs (cur >>> 32)).map (fun t => (cur &&& 0xFFFFFFFF) % 2 ^ 32 :: t)

/-- The outer loop of `mul` over `i`: the limbs of `a` from `i` on and the limbs of
`result` from `i` on (the limbs below `i` are final). -/
def mulOuterLoop : List Nat → List Nat → List Nat → Except Error (List Nat)
  | [], _, res => .ok res
  | a_chunk :: as, b, res =>
    match mulInnerLoop a_chunk b res 0 with
    | .error e => .error e
    | .ok [] => mulOuterLoop as b []
    | .ok (r :: rs) => (mulOuterLoop as b rs).map (fun t => r :: t)

/-- The function `mul(a, b)`: schoolbook multiplication. -/
def mul (a b : BigInt) : Except Error BigInt :=
  if is_zero a || is_zero b then .ok (ofU64 0)
  else (mulOuterLoop a b (List.replicate (a.length + b.length) 0)).map normalize

/-- The loop `while (compare(res, m) >= 0) res = subtract(res, m);`, which `mod` and
`modSafe` both run. -/
def subtractWhileGE : Nat → BigInt → BigInt → Except Error BigInt
  | 0, _, _ => .error .outOfFuel
  | fuel + 1, res, m =>
    if compare res m ≥ 0 then
      match subtract res m with
      | .error e => .error e
      | .ok res1 => subtractWhileGE fuel res1 m
    else .ok res

/-- The loop `while (compare(res, BigInt(0)) < 0) res = add(res, m);` of `mod`. -/
def addWhileNegative : Nat → BigInt → BigInt → Except Error BigInt
  | 0, _, _ => .error .outOfFuel
  | fuel + 1, res, m =>
    if compare res (ofU64 0) < 0 then addWhileNegative fuel (add res m) m
    else .ok res

/-- The function `mod(a, m)`: reduction by repeated subtraction. -/
def mod (fuel : Nat) (a m : BigInt) : Except Error BigInt :=
  match subtractWhileGE fuel a m with
  | .error e => .error e
  | .ok res => addWhileNegative fuel res m

/-- The loop of `modSafe` over the limbs of `a` listed most-significant first. -/
def modSafeLoop (fuel : Nat) : List Nat → BigInt → BigInt → Except Error BigInt
  | [], res, _ => .ok res
  | c :: cs, res, m =>
    match subtractWhileGE fuel (add (shlBits res 32) (ofU64 c)) m with
    | .error e => .error e
    | .ok res1 => modSafeLoop fuel cs res1 m

/-- The function `modSafe(a, m)`: limb-by-limb reduction. -/
def modSafe (fuel : Nat) (a m : BigInt) : Except Error BigInt :=
  if compare a m < 0 then .ok a
  else modSafeLoop fuel a.reverse [] m

/-- The `for (; shift >= 0; shift--)` loop of `divideWithRemainder`; the first argument
is `shift + 1`.  It returns the quotient and the dividend left. -/
def divideLoop : Nat → BigInt → BigInt → BigInt → Except Error (BigInt × BigInt)
  | 0, dividend, _, quotient => .ok (quotient, dividend)
  | shift + 1, dividend, divisor, quotient =>
    if compare dividend divisor ≥ 0 then
      match subtract dividend divisor with
      | .error e => .error e
      | .ok dividend1 =>
        divideLoop shift dividend1 (shr1 divisor) (add quotient (shlBits (ofU64 1) shift))
    else divideLoop shift dividend (shr1 divisor) quotient

/-- The function `divideWithRemainder(a, b, q)`: the pair (quotient `q`, returned remainder).  A
negative `shift` reaches `shlBits` as a huge `size_t`, whose `assign` throws. -/
def divideWithRemainder (a b : BigInt) : Except Error (BigInt × BigInt) :=
  if compare a b < 0 then .ok (ofU64 0, a)
  else if bitLength a < bitLength b then .error .lengthError
  else
    let shift := bitLength a - bitLength b
    divideLoop (shift + 1) a (shlBits b shift) (ofU64 0)

/-- The function `modAdd(a, b, mod)`. -/
def modAdd (fuel : Nat) (a b m : BigInt) : Except Error BigInt :=
  modSafe fuel (add a b) m

/-- The function `modSub(a, b, m)`. -/
def modSub (a b m : BigInt) : Except Error BigInt :=
  let diff : Except Error BigInt :=
    if compare a b ≥ 0 then subtract a b
    else
      match subtract b a with
      | .error e => .error e
      | .ok d => subtract m d
  match diff with
  | .error e => .error e
  | .ok d => if compare d m ≥ 0 then subtract d m else .ok d

/-- The function `modMul(a, b, mod)`. -/
def modMul (fuel : Nat) (a b m : BigInt) : Except Error BigInt :=
  match mul a b with
  | .error e => .error e
  | .ok product => modSafe fuel product m

/-- The function `modFast(a, m)`: the remainder of `divideWithRemainder`. -/
def modFast (a m : BigInt) : Except Error BigInt :=
  (divideWithRemainder a m).map (fun qr => qr.2)

/-- The two inner loops of `modInverse`, `while (is_even(u)) ..` on `u, r` and
`while (is_even(v)) ..` on `v, s`: halve the value, and halve the coefficient after
adding `m` to it when it is odd. -/
def halveWhileEven : Nat → BigInt → BigInt → BigInt → Except Error (BigInt × BigInt)
  | 0, _, _, _ => .error .outOfFuel
  | fuel + 1, u, r, m =>
    if is_even u then
      halveWhileEven fuel (shr1 u) (shr1 (if !is_even r then add r m else r)) m
    else .ok (u, r)

/-- The main loop `while (!u.is_zero())` of `modInverse`; it returns `v` and `s`.
The first argument is the fuel of the inner loops, the second that of this loop. -/
def modInverseLoop (fuel : Nat) :
    Nat → BigInt → BigInt → BigInt → BigInt → BigInt → Except Error (BigInt × BigInt)
  | 0, _, _, _, _, _ => .error .outOfFuel
  | n + 1, u, v, r, s, m =>
    if !is_zero u then
      match halveWhileEven fuel u r m with
      | .error e => .error e
      | .ok (u1, r1) =>
        match halveWhileEven fuel v s m with
        | .error e => .error e
        | .ok (v1, s1) =>
          if compare u1 v1 ≥ 0 then
            match subtract u1 v1, modSub r1 s1 m with
            | .ok u2, .ok r2 => modInverseLoop fuel n u2 v1 r2 s1 m
            | .error e, _ => .error e
            | _, .error e => .error e
          else
            match subtract v1 u1, modSub s1 r1 m with
            | .ok v2, .ok s2 => modInverseLoop fuel n u1 v2 r1 s2 m
            | .error e, _ => .error e
            | _, .error e => .error e
    else .ok (v, s)

/-- The body of the main loop of `modInverse`, one round: both halving loops, then the
subtraction of the smaller of `u`, `v` from the larger with the matching `modSub`. It
returns the new `u`, `v`, `r`, `s`. -/
def modInverseBody (fuel : Nat) (u v r s m : BigInt) :
    Except Error (BigInt × BigInt × BigInt × BigInt) :=
  match halveWhileEven fuel u r m with
  | .error e => .error e
  | .ok (u1, r1) =>
    match halveWhileEven fuel v s m with
    | .error e => .error e
    | .ok (v1, s1) =>
      if compare u1 v1 ≥ 0 then
        match subtract u1 v1, modSub r1 s1 m with
        | .ok u2, .ok r2 => .ok (u2, v1, r2, s1)
        | .error e, _ => .error e
        | _, .error e => .error e
      else
        match subtract v1 u1, modSub s1 r1 m with
        | .ok v2, .ok s2 => .ok (u1, v2, r1, s2)
        | .error e, _ => .error e
        | _, .error e => .error e

/-- The value of a hexadecimal digit character, as `from_hex` reads it; `none` for a
character the loop skips. -/
def hexVal (c : Char) : Option Nat :=
  if '0' ≤ c ∧ c ≤ '9' then some (c.toNat - '0'.toNat)
  else if 'a' ≤ c ∧ c ≤ 'f' then some (c.toNat - 'a'.toNat + 10)
  else if 'A' ≤ c ∧ c ≤ 'F' then some (c.toNat - 'A'.toNat + 10)
  else none

/-- The loop of `from_hex` over the characters (least-significant digit first) with the
state `current`, `bits` and `result.chunks`; the last limb is pushed when bits remain. -/
def from_hexLoop : List Char → Nat → Nat → BigInt → BigInt
  | [], current, bits, chunks => if bits > 0 then chunks ++ [current % 2 ^ 32] else chunks
  | c :: cs, current, bits, chunks =>
    match hexVal c with
    | none => from_hexLoop cs current bits chunks
    | some v =>
      let current1 := current ||| ((v <<< bits) % 2 ^ 64)
      let bits1 := bits + 4
      if bits1 ≥ 32 then
        from_hexLoop cs (current1 >>> 32) (bits1 - 32)
          (chunks ++ [(current1 &&& 0xFFFFFFFF) % 2 ^ 32])
      else from_hexLoop cs current1 bits1 chunks

/-- The text `from_hex` decodes: `hex` without a leading `0x` or `0X`. -/
def stripHexPrefix (hex : List Char) : List Char :=
  match hex with
  | c0 :: c1 :: rest => if c0 = '0' ∧ (c1 = 'x' ∨ c1 = 'X') then rest else hex
  | _ => hex

/-- The function `from_hex(hex)`. -/
def from_hex (hex : List Char) : BigInt :=
  normalize (from_hexLoop (stripHexPrefix hex).reverse 0 0 [])

/-- The upper-case hexadecimal digit character of `d < 16`. -/
def hexDigit (d : Nat) : Char :=
  ("0123456789ABCDEF".toList).getD d '0'

/-- The last `width` hexadecimal digits of `x`, most-significant first. -/
def hexFixed : Nat → Nat → List Char
  | 0, _ => []
  | width + 1, x => hexFixed width (x / 16) ++ [hexDigit (x % 16)]

/-- The numeral a digit field shows: leading zeros dropped, one digit kept. -/
def dropLeadingZeros (s : List Char) : List Char :=
  let t := s.dropWhile (fun c => c == '0')
  if t.isEmpty then ['0'] else t

/-- What `ss << hex << uppercase << x` writes for a 32-bit `x`: the upper-case
hexadecimal numeral of `x` with no padding. -/
def hexString (x : Nat) : List Char :=
  dropLeadingZeros (hexFixed 8 x)

/-- The limbs below the most-significant one in `to_hex`, most-significant first:
each is written with `setw(8)` and fill character `0`. -/
def to_hexLoop : List Nat → List Char
  | [] => []
  | c :: cs => List.leftpad 8 '0' (hexString c) ++ to_hexLoop cs

/-- The function `to_hex(x)`. -/
def to_hex (x : BigInt) : List Char :=
  if is_zero x then ['0', 'x', '0']
  else
    match x.reverse with
    | [] => ['0', 'x']
    | top :: rest => ['0', 'x'] ++ hexString top ++ to_hexLoop rest

/-- The loop of `from_decimal` over the characters with the accumulator `result`. -/
def from_decimalLoop : List Char → BigInt → Except Error BigInt
  | [], result => .ok result
  | c :: cs, result =>
    if c < '0' ∨ c > '9' then from_decimalLoop cs result
    else
      let digit := c.toNat - '0'.toNat
      match mul result (ofU64 10) with
      | .error e => .error e
      | .ok result1 => from_decimalLoop cs (add result1 (ofU64 digit))

/-- The function `from_decimal(s)`. -/
def from_decimal (s : List Char) : Except Error BigInt :=
  from_decimalLoop s []

/-- The loop of `divideByTen` on the limbs listed most-significant first. -/
def divideByTenLoop : List Nat → Nat → List Nat
  | [], _ => []
  | c :: cs, carry =>
    let cur := ((carry <<< 32) % 2 ^ 64) ||| c
    (cur / 10) % 2 ^ 32 :: divideByTenLoop cs (cur % 10)

/-- The function `divideByTen(a)`. -/
def divideByTen (a : BigInt) : BigInt :=
  normalize (divideByTenLoop a.reverse 0).reverse

/-- The loop `while (!temp.is_zero())` of `to_decimal` with the digits pushed so far.
`r.chunks[0]` is read without a test that `r` has a limb. -/
def to_decimalLoop (fuel : Nat) : Nat → BigInt → List Char → Except Error (List Char)
  | 0, _, _ => .error .outOfFuel
  | n + 1, temp, s =>
    if !is_zero temp then
      match mod fuel temp (ofU64 10) with
      | .error e => .error e
      | .ok r =>
        match r with
        | [] => .error .outOfBounds
        | r0 :: _ =>
          to_decimalLoop fuel n (divideByTen temp) (s ++ [Char.ofNat (('0'.toNat + r0) % 256)])
    else .ok s

/-- The function `to_decimal(x)`. -/
def to_decimal (fuel : Nat) (x : BigInt) : Except Error (List Char) :=
  if is_zero x then .ok ['0']
  else (to_decimalLoop fuel fuel x []).map List.reverse

/-- The first loop of `mod`, `while (compare(res, m) >= 0) res = subtract(res, m);`, with
the buffer of `res.chunks` carried along: `subtract` writes every limb of its result and
`normalize` then pops the most-significant zero limbs, which shortens the vector and
leaves the buffer as written; the assignment moves that vector, buffer included, into
`res` (the struct declares no copy or move operation of its own). -/
def subtractWhileGEBuffer :
    Nat → BigInt → List Nat → BigInt → Except Error (BigInt × List Nat)
  | 0, _, _, _ => .error .outOfFuel
  | fuel + 1, res, buffer, m =>
    if compare res m ≥ 0 then
      match subtract res m with
      | .error e => .error e
      | .ok res1 => subtractWhileGEBuffer fuel res1 (subtractLoop res m 0) m
    else .ok (res, buffer)

/-- The second loop of `mod`, `while (compare(res, BigInt(0)) < 0) res = add(res, m);`,
with the buffer of `res.chunks`: `add` pops nothing, so its buffer is its result. -/
def addWhileNegativeBuffer :
    Nat → BigInt → List Nat → BigInt → Except Error (BigInt × List Nat)
  | 0, _, _, _ => .error .outOfFuel
  | fuel + 1, res, buffer, m =>
    if compare res (ofU64 0) < 0 then addWhileNegativeBuffer fuel (add res m) (add res m) m
    else .ok (res, buffer)

/-- The function `mod(a, m)` with the buffer of the vector it returns; `BigInt res = a`
copies the limbs of `a`, so the buffer starts as `a.chunks`. -/
def modBuffer (fuel : Nat) (a m : BigInt) : Except Error (BigInt × List Nat) :=
  match subtractWhileGEBuffer fuel a a m with
  | .error e => .error e
  | .ok (res, buffer) => addWhileNegativeBuffer fuel res buffer m

/-- The loop of `to_decimal` with the read `r.chunks[0]` done on the buffer of `r`: the
limb `subtract` wrote at index 0, also when `normalize` has popped it. Only an empty
buffer leaves nothing to read. -/
def to_decimalBufferLoop (fuel : Nat) : Nat → BigInt → List Char → Except Error (List Char)
  | 0, _, _ => .error .outOfFuel
  | n + 1, temp, s =>
    if !is_zero temp then
      match modBuffer fuel temp (ofU64 10) with
      | .error e => .error e
      | .ok (_, buffer) =>
        match buffer with
        | [] => .error .outOfBounds
        | r0 :: _ =>
          to_decimalBufferLoop fuel n (divideByTen temp)
            (s ++ [Char.ofNat (('0'.toNat + r0) % 256)])
    else .ok s

/-- The function `to_decimal(x)` as the program runs it, the read of `r.chunks[0]` being
done on the buffer. -/
def to_decimalBuffer (fuel : Nat) (x : BigInt) : Except Error (List Char) :=
  if is_zero x then .ok ['0']
  else (to_decimalBufferLoop fuel fuel x []).map List.reverse

/-- The two calls `to_decimal(a)` and `to_decimal(m)` that `modInverse` makes for the
lines it writes to `cout` before each `throw`, run as the program runs them
(`to_decimalBuffer`). The text itself goes to the console. -/
def modInverseDiagnostics (fuel : Nat) (a m : BigInt) : Except Error Unit :=
  match to_decimalBuffer fuel a with
  | .error e => .error e
  | .ok _ =>
    match to_decimalBuffer fuel m with
    | .error e => .error e
    | .ok _ => .ok ()

/-- The function `modInverse(a, m)`: binary extended gcd. Each `throw` comes after the
diagnostic calls. -/
def modInverse (fuel : Nat) (a m : BigInt) : Except Error BigInt :=
  if is_zero m then
    match modInverseDiagnostics fuel a m with
    | .error e => .error e
    | .ok _ => .error .invalidModulus
  else
    match mod fuel a m with
    | .error e => .error e
    | .ok a1 =>
      if is_zero a1 then
        match modInverseDiagnostics fuel a1 m with
        | .error e => .error e
        | .ok _ => .error .inverseDoesNotExist
      else
        match modInverseLoop fuel fuel a1 m (ofU64 1) (ofU64 0) m with
        | .error e => .error e
        | .ok (v, s) =>
          if compare v (ofU64 1) ≠ 0 then
            match modInverseDiagnostics fuel a1 m with
            | .error e => .error e
            | .ok _ => .error .notCoprime
          else mod fuel s m

/-! ## Definitions used to state the properties -/

/-- Every limb fits 32 bits. -/
def Limbs (x : BigInt) : Prop := ∀ c ∈ x, c < 2 ^ 32

/-- Read the hexadecimal digit characters of `s` in order onto `acc`, skipping every
other character. -/
def hexAcc (acc : Nat) (s : List Char) : Nat :=
  s.foldl (fun a c => match hexVal c with
    | some v => a * 16 + v
    | none => a) acc

/-- The base-16 number formed by the hexadecimal digit characters of `s`, in order. -/
def hexValue (s : List Char) : Nat :=
  hexAcc 0 s

/-- The sixteen digit characters `to_hex` writes. -/
def upperHexChars : List Char :=
  "0123456789ABCDEF".toList

/-- A hexadecimal digit character, in either case. -/
def IsHexDigit (c : Char) : Prop :=
  ('0' ≤ c ∧ c ≤ '9') ∨ ('a' ≤ c ∧ c ≤ 'f') ∨ ('A' ≤ c ∧ c ≤ 'F')

instance (c : Char) : Decidable (IsHexDigit c) := by
  unfold IsHexDigit; infer_instance

/-- The twenty-two hexadecimal digit characters. -/
def hexChars : List Char :=
  "0123456789abcdefABCDEF".toList

/-- The digit a character of `to_hex` stands for. -/
def hexDigitValue (c : Char) : Nat :=
  (hexVal c).getD 0

/-- Read the decimal digit characters of `s` in order onto `acc`, skipping every other
character. -/
def decAcc (acc : Nat) (s : List Char) : Nat :=
  s.foldl (fun a c => if c.isDigit then a * 10 + (c.toNat - 48) else a) acc

/-- The base-10 number formed by the decimal digit characters of `s`, in order. -/
def decValue (s : List Char) : Nat :=
  decAcc 0 s

/-- The invariant of the main loop of `modInverse(a, m)` at the head of a round: the four
values are canonical, `v` is not zero, the coefficients `r` and `s` are below `m` and
satisfy `r * a ≡ u` and `s * a ≡ v` modulo `m`, and `u`, `v` are coprime and not both
even. -/
def LoopInv (a m u v r s : BigInt) : Prop :=
  Canonical u ∧ Canonical v ∧ Canonical r ∧ Canonical s ∧ 0 < val v ∧
    val r < val m ∧ val s < val m ∧
    val r * val a ≡ val u [MOD val m] ∧ val s * val a ≡ val v [MOD val m] ∧
    Nat.gcd (val u) (val v) = 1 ∧ (val u % 2 = 1 ∨ val v % 2 = 1)

/-! ## Properties -/

theorem mask_eq_mod (x : Nat) : x &&& 0xFFFFFFFF = x % 2 ^ 32 :=
  Nat.and_pow_two_sub_one_eq_mod x 32

theorem shr32_eq_div (x : Nat) : x >>> 32 = x / 2 ^ 32 :=
  Nat.shiftRight_eq_div_pow x 32

theorem limbs_nil : Limbs [] := by intro c hc; cases hc

theorem limbs_cons {c : Nat} {cs : BigInt} : Limbs (c :: cs) ↔ c < 2 ^ 32 ∧ Limbs cs := by
  simp [Limbs]

theorem limbs_append {a b : BigInt} : Limbs (a ++ b) ↔ Limbs a ∧ Limbs b := by
  simp only [Limbs, List.mem_append]
  constructor
  · intro h; exact ⟨fun c hc => h c (Or.inl hc), fun c hc => h c (Or.inr hc)⟩
  · rintro ⟨h1, h2⟩ c (hc | hc)
    · exact h1 c hc
    · exact h2 c hc

theorem limbs_reverse {a : BigInt} : Limbs a.reverse ↔ Limbs a := by
  simp [Limbs]

theorem limbs_replicate_zero (n : Nat) : Limbs (List.replicate n 0) := by
  intro c hc
  rw [List.eq_of_mem_replicate hc]; norm_num

theorem Canonical.limbs {x : BigInt} (h : Canonical x) : Limbs x := h.1

theorem val_nil : val [] = 0 := rfl

theorem val_cons (c : Nat) (cs : BigInt) : val (c :: cs) = c + 2 ^ 32 * val cs := rfl

theorem val_eq_ofDigits (x : BigInt) : val x = Nat.ofDigits (2 ^ 32) x := by
  induction x with
  | nil => rfl
  | cons c cs ih => simp [val, Nat.ofDigits_cons, ih]

theorem val_append (a b : BigInt) : val (a ++ b) = val a + 2 ^ (32 * a.length) * val b := by
  induction a with
  | nil => simp [val]
  | cons c cs ih =>
    rw [List.cons_append, val_cons, val_cons, ih, List.length_cons]
    ring

theorem val_singleton (c : Nat) : val [c] = c := by simp [val]

theorem val_replicate_zero (n : Nat) : val (List.replicate n 0) = 0 := by
  induction n with
  | zero => rfl
  | succ n ih => simp [List.replicate_succ, val, ih]

theorem val_lt {x : BigInt} (h : Limbs x) : val x < 2 ^ (32 * x.length) := by
  induction x with
  | nil => simp [val]
  | cons c cs ih =>
    have hc := (limbs_cons.1 h).1
    have hcs := ih (limbs_cons.1 h).2
    simp only [val, List.length_cons]
    have : 2 ^ (32 * (cs.length + 1)) = 2 ^ 32 * 2 ^ (32 * cs.length) := by ring
    rw [this]
    nlinarith

theorem canonical_nil : Canonical [] := by decide

theorem canonical_append_singleton {l : BigInt} {c : Nat} :
    Canonical (l ++ [c]) ↔ Limbs l ∧ c < 2 ^ 32 ∧ c ≠ 0 := by
  unfold Canonical
  rw [show (∀ d ∈ l ++ [c], d < 2 ^ 32) ↔ Limbs (l ++ [c]) from Iff.rfl, limbs_append]
  simp [Limbs]
  tauto

theorem val_pos_of_canonical {x : BigInt} (h : Canonical x) (hx : x ≠ []) :
    2 ^ (32 * (x.length - 1)) ≤ val x := by
  induction x using List.reverseRecOn with
  | nil => exact absurd rfl hx
  | append_singleton l c _ =>
    obtain ⟨_, _, hc0⟩ := canonical_append_singleton.1 h
    rw [val_append, val_singleton]
    simp only [List.length_append, List.length_singleton, Nat.add_sub_cancel]
    have : 1 ≤ c := Nat.one_le_iff_ne_zero.2 hc0
    nlinarith [Nat.pos_pow_of_pos (32 * l.length) (show 0 < 2 by norm_num)]

theorem val_eq_zero_iff {x : BigInt} (h : Canonical x) : val x = 0 ↔ x = [] := by
  constructor
  · intro h0
    by_contra hx
    have := val_pos_of_canonical h hx
    have : 0 < 2 ^ (32 * (x.length - 1)) := by positivity
    omega
  · rintro rfl; rfl

theorem canonical_ext {a b : BigInt} (ha : Canonical a) (hb : Canonical b)
    (h : val a = val b) : a = b := by
  have key : ∀ x : BigInt, Canonical x → Nat.digits (2 ^ 32) (val x) = x := by
    intro x hx
    rw [val_eq_ofDigits]
    apply Nat.digits_ofDigits _ (by norm_num) _ hx.1
    intro hne hl
    apply hx.2
    rw [List.getLast?_eq_getLast _ hne, hl]
  rw [← key a ha, ← key b hb, h]

theorem normalize_append_zero (l : BigInt) : normalize (l ++ [0]) = normalize l := by
  simp [normalize, List.rdropWhile_concat]

theorem normalize_append_ne {l : BigInt} {c : Nat} (hc : c ≠ 0) :
    normalize (l ++ [c]) = l ++ [c] := by
  simp [normalize, List.rdropWhile_concat, hc]

theorem normalize_nil : normalize [] = [] := rfl

theorem val_normalize (x : BigInt) : val (normalize x) = val x := by
  induction x using List.reverseRecOn with
  | nil => rfl
  | append_singleton l c ih =>
    by_cases hc : c = 0
    · subst hc
      rw [normalize_append_zero, ih, val_append]
      simp [val]
    · rw [normalize_append_ne hc]

theorem limbs_normalize {x : BigInt} (h : Limbs x) : Limbs (normalize x) := by
  induction x using List.reverseRecOn with
  | nil => exact h
  | append_singleton l c ih =>
    by_cases hc : c = 0
    · subst hc
      rw [normalize_append_zero]
      exact ih (limbs_append.1 h).1
    · rw [normalize_append_ne hc]; exact h

theorem canonical_normalize {x : BigInt} (h : Limbs x) : Canonical (normalize x) := by
  induction x using List.reverseRecOn with
  | nil => exact canonical_nil
  | append_singleton l c ih =>
    by_cases hc : c = 0
    · subst hc
      rw [normalize_append_zero]
      exact ih (limbs_append.1 h).1
    · rw [normalize_append_ne hc]
      have h2 := limbs_append.1 h
      exact canonical_append_singleton.2 ⟨h2.1, h2.2 c (by simp), hc⟩

theorem normalize_of_canonical {x : BigInt} (h : Canonical x) : normalize x = x :=
  canonical_ext (canonical_normalize h.1) h (val_normalize x)

theorem length_normalize_le (x : BigInt) : (normalize x).length ≤ x.length :=
  (List.rdropWhile_prefix _ x).length_le

theorem val_reverse_cons (c : Nat) (cs : List Nat) :
    val (c :: cs).reverse = val cs.reverse + 2 ^ (32 * cs.length) * c := by
  rw [List.reverse_cons, val_append, val_singleton, List.length_reverse]

theorem val_reverse_lt {cs : List Nat} (h : Limbs cs) :
    val cs.reverse < 2 ^ (32 * cs.length) := by
  have := val_lt (limbs_reverse.2 h)
  rwa [List.length_reverse] at this

theorem compareLoop_spec : ∀ (as bs : List Nat), as.length = bs.length → Limbs as → Limbs bs →
    compareLoop as bs =
      if val as.reverse < val bs.reverse then -1
      else if val as.reverse = val bs.reverse then 0 else 1
  | [], [], _, _, _ => by simp [compareLoop]
  | [], _ :: _, h, _, _ => by simp at h
  | _ :: _, [], h, _, _ => by simp at h
  | a :: as, b :: bs, h, ha, hb => by
    have hlen : as.length = bs.length := by simpa using h
    have ha' := (limbs_cons.1 ha).2
    have hb' := (limbs_cons.1 hb).2
    have ih := compareLoop_spec as bs hlen ha' hb'
    have h1 := val_reverse_lt ha'
    have h2 := val_reverse_lt hb'
    rw [hlen] at h1
    rw [compareLoop, val_reverse_cons, val_reverse_cons, hlen]
    have hp : 0 < 2 ^ (32 * bs.length) := by positivity
    generalize 2 ^ (32 * bs.length) = P at *
    generalize val as.reverse = x at *
    generalize val bs.reverse = y at *
    by_cases hab : a = b
    · subst hab
      simp only [ne_eq, not_true_eq_false, if_false, ih]
      simp
    · simp only [ne_eq, hab, not_false_eq_true, if_true]
      rcases Nat.lt_or_gt_of_ne hab with hlt | hgt
      · have : x + P * a < y + P * b := by nlinarith
        simp [hlt, this]
      · have h3 : y + P * b < x + P * a := by nlinarith
        have h4 : ¬ a < b := by omega
        have h5 : ¬ x + P * a < y + P * b := by omega
        have h6 : ¬ x + P * a = y + P * b := by omega
        simp [h4, h5, h6]

theorem val_lt_of_length_lt {a b : BigInt} (ha : Limbs a) (hb : Canonical b)
    (h : a.length < b.length) : val a < val b := by
  have h1 := val_lt ha
  have hbne : b ≠ [] := by rintro rfl; simp at h
  have h2 := val_pos_of_canonical hb hbne
  have h3 : 2 ^ (32 * a.length) ≤ 2 ^ (32 * (b.length - 1)) :=
    Nat.pow_le_pow_right (by norm_num) (by omega)
  omega

theorem compare_spec {a b : BigInt} (ha : Canonical a) (hb : Canonical b) :
    compare a b = if val a < val b then -1 else if val a = val b then 0 else 1 := by
  unfold compare
  by_cases hlen : a.length = b.length
  · have := compareLoop_spec a.reverse b.reverse (by simpa using hlen)
      (limbs_reverse.2 ha.1) (limbs_reverse.2 hb.1)
    simpa [hlen] using this
  · rcases Nat.lt_or_gt_of_ne hlen with hlt | hgt
    · have := val_lt_of_length_lt ha.1 hb hlt
      simp [hlen, hlt, this]
    · have h3 := val_lt_of_length_lt hb.1 ha hgt
      have h4 : ¬ a.length < b.length := by omega
      have h5 : ¬ val a < val b := by omega
      have h6 : ¬ val a = val b := by omega
      simp [hlen, h4, h5, h6]

theorem compare_lt_iff {a b : BigInt} (ha : Canonical a) (hb : Canonical b) :
    compare a b < 0 ↔ val a < val b := by
  rw [compare_spec ha hb]
  split_ifs with h1 h2
  · simp [h1]
  · simp [h1]
  · simp [h1]

theorem compare_ge_iff {a b : BigInt} (ha : Canonical a) (hb : Canonical b) :
    compare a b ≥ 0 ↔ val b ≤ val a := by
  rw [compare_spec ha hb]
  split_ifs with h1 h2
  · simp; omega
  · simp; omega
  · simp; omega

theorem compare_eq_zero_iff {a b : BigInt} (ha : Canonical a) (hb : Canonical b) :
    compare a b = 0 ↔ val a = val b := by
  rw [compare_spec ha hb]
  split_ifs with h1 h2
  · simp; omega
  · simp [h2]
  · simp [h2]

/-! ### add -/

theorem val_tail_headD (a : BigInt) : val a = a.headD 0 + 2 ^ 32 * val a.tail := by
  cases a <;> simp [val]

theorem limbs_tail {a : BigInt} (h : Limbs a) : Limbs a.tail := by
  cases a with
  | nil => exact h
  | cons c cs => exact (limbs_cons.1 h).2

theorem headD_lt {a : BigInt} (h : Limbs a) : a.headD 0 < 2 ^ 32 := by
  cases a with
  | nil => simp
  | cons c cs => exact (limbs_cons.1 h).1

theorem addLoop_spec : ∀ (n : Nat) (a b : BigInt) (carry : Nat), a.length ≤ n → b.length ≤ n →
    Limbs a → Limbs b → carry ≤ 1 →
    val (addLoop n a b carry) = val a + val b + carry ∧ Limbs (addLoop n a b carry)
  | 0, a, b, carry, ha, hb, _, _, hc => by
    have ha0 : a = [] := List.length_eq_zero.1 (by omega)
    have hb0 : b = [] := List.length_eq_zero.1 (by omega)
    subst ha0 hb0
    unfold addLoop
    by_cases h0 : carry = 0
    · simp [h0, val, limbs_nil]
    · have : carry % 2 ^ 32 = carry := Nat.mod_eq_of_lt (by omega)
      simp only [ne_eq, h0, not_false_eq_true, if_true, this, val_singleton, val_nil]
      refine ⟨by omega, ?_⟩
      intro c hc'
      simp at hc'
      omega
  | n + 1, a, b, carry, ha, hb, hla, hlb, hc => by
    have h1 := headD_lt hla
    have h2 := headD_lt hlb
    have hs : (a.headD 0 + b.headD 0 + carry) / 2 ^ 32 ≤ 1 := by omega
    have ih := addLoop_spec n a.tail b.tail ((a.headD 0 + b.headD 0 + carry) / 2 ^ 32)
      (by simp; omega) (by simp; omega) (limbs_tail hla) (limbs_tail hlb) hs
    unfold addLoop
    simp only [mask_eq_mod, shr32_eq_div, Nat.mod_mod]
    rw [val_cons, ih.1, limbs_cons, val_tail_headD a, val_tail_headD b]
    refine ⟨?_, Nat.mod_lt _ (by norm_num), ih.2⟩
    have := Nat.div_add_mod (a.headD 0 + b.headD 0 + carry) (2 ^ 32)
    omega

theorem val_add {a b : BigInt} (ha : Limbs a) (hb : Limbs b) :
    val (add a b) = val a + val b := by
  have := (addLoop_spec (max a.length b.length) a b 0 (le_max_left _ _) (le_max_right _ _)
    ha hb (by omega)).1
  simpa [add] using this

theorem limbs_add {a b : BigInt} (ha : Limbs a) (hb : Limbs b) : Limbs (add a b) :=
  (addLoop_spec (max a.length b.length) a b 0 (le_max_left _ _) (le_max_right _ _)
    ha hb (by omega)).2

theorem getLast?_tail_ne {a : BigInt} (h : a.getLast? ≠ some 0) : a.tail.getLast? ≠ some 0 := by
  cases a with
  | nil => exact h
  | cons c cs =>
    cases cs with
    | nil => simp
    | cons d ds => simpa [List.getLast?_cons_cons] using h

theorem addLoop_getLast : ∀ (n : Nat) (a b : BigInt) (carry : Nat),
    max a.length b.length = n → a.getLast? ≠ some 0 → b.getLast? ≠ some 0 →
    Limbs a → Limbs b → carry ≤ 1 → (addLoop n a b carry).getLast? ≠ some 0
  | 0, a, b, carry, _, _, _, _, _, hc => by
    unfold addLoop
    by_cases h0 : carry = 0
    · simp [h0]
    · simp only [ne_eq, h0, not_false_eq_true, if_true, List.getLast?_singleton]
      intro hz
      have hz' : carry % 2 ^ 32 = 0 := by simpa using hz
      omega
  | n + 1, a, b, carry, hn, ha, hb, hla, hlb, hc => by
    have h1 := headD_lt hla
    have h2 := headD_lt hlb
    have hs : (a.headD 0 + b.headD 0 + carry) / 2 ^ 32 ≤ 1 := by omega
    have hmax : max a.tail.length b.tail.length = n := by
      simp only [List.length_tail]; omega
    have ih := addLoop_getLast n a.tail b.tail ((a.headD 0 + b.headD 0 + carry) / 2 ^ 32)
      hmax (getLast?_tail_ne ha) (getLast?_tail_ne hb) (limbs_tail hla) (limbs_tail hlb) hs
    unfold addLoop
    simp only [mask_eq_mod, shr32_eq_div, Nat.mod_mod]
    cases hrest : addLoop n a.tail b.tail ((a.headD 0 + b.headD 0 + carry) / 2 ^ 32) with
    | cons r rs =>
      rw [List.getLast?_cons_cons, ← hrest]; exact ih
    | nil =>
      cases n with
      | succ k => unfold addLoop at hrest; simp at hrest
      | zero =>
        unfold addLoop at hrest
        have hc0 : (a.headD 0 + b.headD 0 + carry) / 2 ^ 32 = 0 := by
          by_contra hne
          rw [if_pos hne] at hrest
          simp at hrest
        have hlt : a.headD 0 + b.headD 0 + carry < 2 ^ 32 := by omega
        rw [List.getLast?_singleton, Nat.mod_eq_of_lt hlt]
        intro hz
        have hz' : a.headD 0 + b.headD 0 + carry = 0 := by simpa using hz
        have hlen : a.length = 1 ∨ b.length = 1 := by omega
        rcases hlen with h | h
        · obtain ⟨x, rfl⟩ := List.length_eq_one.1 h
          simp at ha hz'
          omega
        · obtain ⟨x, rfl⟩ := List.length_eq_one.1 h
          simp at hb hz'
          omega

theorem canonical_add {a b : BigInt} (ha : Canonical a) (hb : Canonical b) :
    Canonical (add a b) :=
  ⟨limbs_add ha.1 hb.1, addLoop_getLast _ a b 0 rfl ha.2 hb.2 ha.1 hb.1 (by omega)⟩

/-! ### subtract -/

theorem subtractLoop_spec : ∀ (a b : BigInt) (borrow : Int), Limbs a → Limbs b →
    (borrow = 0 ∨ borrow = -1) → (val b : Int) - borrow ≤ val a →
    (val (subtractLoop a b borrow) : Int) = val a - val b + borrow ∧
      Limbs (subtractLoop a b borrow)
  | [], b, borrow, _, _, hbo, hle => by
    simp only [subtractLoop, val_nil]
    refine ⟨?_, limbs_nil⟩
    simp only [val_nil] at hle
    omega
  | a0 :: as, b, borrow, hla, hlb, hbo, hle => by
    have h1 := (limbs_cons.1 hla).1
    have h2 := headD_lt hlb
    have hb := val_tail_headD b
    rw [val_cons] at hle
    rw [hb] at hle
    push_cast at hle
    unfold subtractLoop
    simp only
    by_cases hd : (a0 : Int) - (b.headD 0 : Int) + borrow < 0
    · have ih := subtractLoop_spec as b.tail (-1) (limbs_cons.1 hla).2 (limbs_tail hlb)
        (Or.inr rfl) (by omega)
      rw [if_pos hd, val_cons, limbs_cons, val_cons, hb]
      push_cast
      rw [ih.1]
      refine ⟨?_, ?_, ih.2⟩
      · omega
      · omega
    · have ih := subtractLoop_spec as b.tail 0 (limbs_cons.1 hla).2 (limbs_tail hlb)
        (Or.inl rfl) (by omega)
      rw [if_neg hd, val_cons, limbs_cons, val_cons, hb]
      push_cast
      rw [ih.1]
      refine ⟨?_, ?_, ih.2⟩
      · omega
      · omega

theorem subtract_ok {a b : BigInt} (ha : Canonical a) (hb : Canonical b)
    (h : val b ≤ val a) :
    ∃ r, subtract a b = .ok r ∧ val r = val a - val b ∧ Canonical r := by
  have hc : ¬ compare a b < 0 := by
    rw [compare_lt_iff ha hb]; omega
  have hs := subtractLoop_spec a b 0 ha.1 hb.1 (Or.inl rfl) (by simpa using h)
  refine ⟨normalize (subtractLoop a b 0), by simp [subtract, hc], ?_, canonical_normalize hs.2⟩
  rw [val_normalize]
  have := hs.1
  omega

theorem subtract_underflow {a b : BigInt} (ha : Canonical a) (hb : Canonical b)
    (h : val a < val b) : subtract a b = .error .underflow := by
  have hc : compare a b < 0 := (compare_lt_iff ha hb).2 h
  simp [subtract, hc]

/-! ### the constructor -/

theorem ofU64_spec (v : Nat) : val (ofU64 v) = v % 2 ^ 64 ∧ Canonical (ofU64 v) := by
  have hv : v % 2 ^ 64 < 2 ^ 64 := Nat.mod_lt _ (by norm_num)
  generalize hw : v % 2 ^ 64 = w at hv
  have hl : val (ofU64Loop 2 w) = w ∧ Limbs (ofU64Loop 2 w) := by
    simp only [ofU64Loop, mask_eq_mod, shr32_eq_div, Nat.mod_mod]
    by_cases h0 : w > 0
    · by_cases h1 : w / 2 ^ 32 > 0
      · simp only [h0, h1, if_true, val_cons, val_nil, limbs_cons]
        refine ⟨by omega, Nat.mod_lt _ (by norm_num), Nat.mod_lt _ (by norm_num), limbs_nil⟩
      · simp only [h0, h1, if_true, if_false, val_cons, val_nil, limbs_cons]
        refine ⟨by omega, Nat.mod_lt _ (by norm_num), limbs_nil⟩
    · simp only [h0, if_false, val_nil]
      exact ⟨by omega, limbs_nil⟩
  unfold ofU64
  rw [hw, val_normalize]
  exact ⟨hl.1, canonical_normalize hl.2⟩

theorem val_ofU64 {v : Nat} (h : v < 2 ^ 64) : val (ofU64 v) = v := by
  rw [(ofU64_spec v).1, Nat.mod_eq_of_lt h]

theorem canonical_ofU64 (v : Nat) : Canonical (ofU64 v) := (ofU64_spec v).2

theorem ofU64_zero : ofU64 0 = [] := by decide

theorem ofU64_one : ofU64 1 = [1] := by decide

/-! ### shlBits -/

theorem or_eq_add_of_lt {s carry : Nat} (c : Nat) (h : carry < 2 ^ s) :
    (c * 2 ^ s) ||| carry = c * 2 ^ s + carry := by
  rw [Nat.mul_comm]; exact (Nat.mul_add_lt_is_or h c).symm

theorem shlBitsLoop_spec : ∀ (cs : BigInt) (s carry : Nat), s < 32 → Limbs cs → carry < 2 ^ s →
    val (shlBitsLoop cs s carry) = val cs * 2 ^ s + carry ∧ Limbs (shlBitsLoop cs s carry)
  | [], s, carry, hs, _, hc => by
    have h32 : (2 : Nat) ^ s < 2 ^ 32 := Nat.pow_lt_pow_right (by norm_num) hs
    unfold shlBitsLoop
    by_cases h0 : carry = 0
    · simp [h0, val, limbs_nil]
    · have : carry % 2 ^ 32 = carry := Nat.mod_eq_of_lt (by omega)
      simp only [ne_eq, h0, not_false_eq_true, if_true, this, val_singleton, val_nil, limbs_cons]
      exact ⟨by omega, by omega, limbs_nil⟩
  | c :: cs, s, carry, hs, hl, hc => by
    have hc32 := (limbs_cons.1 hl).1
    have h32 : (2 : Nat) ^ s < 2 ^ 32 := Nat.pow_lt_pow_right (by norm_num) hs
    have hps : 0 < 2 ^ s := by positivity
    have hcur : c * 2 ^ s + carry < 2 ^ 32 * 2 ^ s := by nlinarith
    have h64 : c * 2 ^ s < 2 ^ 64 := by nlinarith
    have hcarry : (c * 2 ^ s + carry) / 2 ^ 32 < 2 ^ s := by
      rw [Nat.div_lt_iff_lt_mul (by norm_num)]; linarith
    have ih := shlBitsLoop_spec cs s ((c * 2 ^ s + carry) / 2 ^ 32) hs (limbs_cons.1 hl).2 hcarry
    unfold shlBitsLoop
    simp only [mask_eq_mod, shr32_eq_div, Nat.mod_mod, Nat.shiftLeft_eq, Nat.mod_eq_of_lt h64,
      or_eq_add_of_lt c hc]
    rw [val_cons, ih.1, limbs_cons, val_cons]
    refine ⟨?_, Nat.mod_lt _ (by norm_num), ih.2⟩
    have := Nat.div_add_mod (c * 2 ^ s + carry) (2 ^ 32)
    generalize (c * 2 ^ s + carry) / 2 ^ 32 = q at *
    generalize (c * 2 ^ s + carry) % 2 ^ 32 = r at *
    nlinarith

theorem shlBitsLoop_getLast : ∀ (cs : BigInt) (s carry : Nat), s < 32 → Limbs cs →
    carry < 2 ^ s → cs.getLast? ≠ some 0 → (shlBitsLoop cs s carry).getLast? ≠ some 0
  | [], s, carry, hs, _, hc, _ => by
    have h32 : (2 : Nat) ^ s < 2 ^ 32 := Nat.pow_lt_pow_right (by norm_num) hs
    unfold shlBitsLoop
    by_cases h0 : carry = 0
    · simp [h0]
    · simp only [ne_eq, h0, not_false_eq_true, if_true, List.getLast?_singleton]
      intro hz
      have hz' : carry % 2 ^ 32 = 0 := by simpa using hz
      omega
  | c :: cs, s, carry, hs, hl, hc, hlast => by
    have hc32 := (limbs_cons.1 hl).1
    have h32 : (2 : Nat) ^ s < 2 ^ 32 := Nat.pow_lt_pow_right (by norm_num) hs
    have hps : 0 < 2 ^ s := by positivity
    have hcur : c * 2 ^ s + carry < 2 ^ 32 * 2 ^ s := by nlinarith
    have h64 : c * 2 ^ s < 2 ^ 64 := by nlinarith
    have hcarry : (c * 2 ^ s + carry) / 2 ^ 32 < 2 ^ s := by
      rw [Nat.div_lt_iff_lt_mul (by norm_num)]; linarith
    have ih := shlBitsLoop_getLast cs s ((c * 2 ^ s + carry) / 2 ^ 32) hs (limbs_cons.1 hl).2
      hcarry (getLast?_tail_ne hlast)
    unfold shlBitsLoop
    simp only [mask_eq_mod, shr32_eq_div, Nat.mod_mod, Nat.shiftLeft_eq, Nat.mod_eq_of_lt h64,
      or_eq_add_of_lt c hc]
    cases hrest : shlBitsLoop cs s ((c * 2 ^ s + carry) / 2 ^ 32) with
    | cons r rs => rw [List.getLast?_cons_cons, ← hrest]; exact ih
    | nil =>
      cases cs with
      | cons d ds => unfold shlBitsLoop at hrest; simp [Nat.shiftLeft_eq] at hrest
      | nil =>
        unfold shlBitsLoop at hrest
        have hc0 : (c * 2 ^ s + carry) / 2 ^ 32 = 0 := by
          by_contra hne
          rw [if_pos hne] at hrest
          simp at hrest
        have hlt : c * 2 ^ s + carry < 2 ^ 32 := by
          exact (Nat.div_eq_zero_iff (by norm_num)).1 hc0
        rw [List.getLast?_singleton, Nat.mod_eq_of_lt hlt]
        intro hz
        have hz' : c * 2 ^ s + carry = 0 := by simpa using hz
        have hc0' : c ≠ 0 := by simpa using hlast
        have : 0 < c * 2 ^ s := Nat.mul_pos (Nat.pos_of_ne_zero hc0') hps
        omega

theorem shlBits_spec {x : BigInt} (hx : Canonical x) (k : Nat) :
    val (shlBits x k) = val x * 2 ^ k ∧ Canonical (shlBits x k) := by
  unfold shlBits is_zero
  cases x with
  | nil => simp [val, canonical_nil]
  | cons c cs =>
    have hk : k % 32 < 32 := Nat.mod_lt _ (by norm_num)
    have h1 := shlBitsLoop_spec (c :: cs) (k % 32) 0 hk hx.1 (by positivity)
    have h2 := shlBitsLoop_getLast (c :: cs) (k % 32) 0 hk hx.1 (by positivity) hx.2
    have hne : shlBitsLoop (c :: cs) (k % 32) 0 ≠ [] := by
      unfold shlBitsLoop; simp
    simp only [List.isEmpty_cons, Bool.false_eq_true, if_false]
    refine ⟨?_, ?_, ?_⟩
    · rw [val_append, val_replicate_zero, h1.1, List.length_replicate]
      have : 2 ^ k = 2 ^ (32 * (k / 32)) * 2 ^ (k % 32) := by
        rw [← pow_add, Nat.div_add_mod]
      rw [this]; ring
    · exact limbs_append.2 ⟨limbs_replicate_zero _, h1.2⟩
    · rw [List.getLast?_append_of_ne_nil _ hne]; exact h2

theorem val_shlBits {x : BigInt} (hx : Canonical x) (k : Nat) :
    val (shlBits x k) = val x * 2 ^ k := (shlBits_spec hx k).1

theorem canonical_shlBits {x : BigInt} (hx : Canonical x) (k : Nat) :
    Canonical (shlBits x k) := (shlBits_spec hx k).2

/-! ### shr1 -/

theorem shr1Loop_spec : ∀ (cs : List Nat) (carry : Nat), Limbs cs → carry ≤ 1 →
    val (shr1Loop cs carry).reverse = (carry * 2 ^ (32 * cs.length) + val cs.reverse) / 2 ∧
      Limbs (shr1Loop cs carry) ∧ (shr1Loop cs carry).length = cs.length
  | [], carry, _, hc => by
    simp only [shr1Loop, List.reverse_nil, val_nil, List.length_nil, Nat.mul_zero, pow_zero]
    exact ⟨by omega, limbs_nil, trivial⟩
  | c :: cs, carry, hl, hc => by
    have hc32 := (limbs_cons.1 hl).1
    have hor : c ||| carry <<< 32 = carry * 2 ^ 32 + c := by
      rw [Nat.shiftLeft_eq, Nat.or_comm, or_eq_add_of_lt carry hc32]
    have ih := shr1Loop_spec cs ((carry * 2 ^ 32 + c) % 2) (limbs_cons.1 hl).2
      (by omega)
    unfold shr1Loop
    simp only [hor, Nat.and_one_is_mod, Nat.shiftRight_eq_div_pow, pow_one]
    have hmod : (carry * 2 ^ 32 + c) % 2 % 2 ^ 32 = (carry * 2 ^ 32 + c) % 2 := by omega
    have hdiv : (carry * 2 ^ 32 + c) / 2 % 2 ^ 32 = (carry * 2 ^ 32 + c) / 2 := by omega
    rw [hmod, hdiv, val_reverse_cons, ih.1, limbs_cons, val_reverse_cons, ih.2.2,
      List.length_cons, List.length_cons, ih.2.2]
    refine ⟨?_, ⟨by omega, ih.2.1⟩, rfl⟩
    have hP : 2 ^ (32 * (cs.length + 1)) = 2 ^ 32 * 2 ^ (32 * cs.length) := by ring
    rw [hP]
    have hcur := Nat.div_add_mod (carry * 2 ^ 32 + c) 2
    generalize 2 ^ (32 * cs.length) = P at *
    generalize val cs.reverse = V at *
    generalize hq : (carry * 2 ^ 32 + c) / 2 = q at *
    generalize hr : (carry * 2 ^ 32 + c) % 2 = r at *
    have e : carry * (2 ^ 32 * P) + (V + P * c) = (r * P + V) + 2 * (P * q) := by
      have : carry * 2 ^ 32 + c = 2 * q + r := by omega
      calc carry * (2 ^ 32 * P) + (V + P * c) = P * (carry * 2 ^ 32 + c) + V := by ring
        _ = P * (2 * q + r) + V := by rw [this]
        _ = (r * P + V) + 2 * (P * q) := by ring
    rw [e, Nat.add_mul_div_left _ _ (by norm_num : 0 < 2)]

theorem shr1_spec {x : BigInt} (hx : Limbs x) :
    val (shr1 x) = val x / 2 ∧ Canonical (shr1 x) := by
  have h := shr1Loop_spec x.reverse 0 (limbs_reverse.2 hx) (by omega)
  unfold shr1
  rw [val_normalize, h.1]
  simp only [Nat.zero_mul, Nat.zero_add, List.reverse_reverse, true_and]
  exact canonical_normalize (limbs_reverse.2 h.2.1)

/-! ### bitLength -/

theorem clzLoop_spec : ∀ (n x : Nat), x ≠ 0 → x < 2 ^ n →
    clzLoop n x < n ∧ 2 ^ (n - clzLoop n x - 1) ≤ x ∧ x < 2 ^ (n - clzLoop n x)
  | 0, x, h0, h => by simp at h; omega
  | n + 1, x, h0, h => by
    unfold clzLoop
    by_cases hx : 2 ^ n ≤ x
    · simp only [hx, if_true]
      refine ⟨by omega, ?_, ?_⟩
      · simpa using hx
      · simpa using h
    · simp only [hx, if_false]
      have ih := clzLoop_spec n x h0 (by omega)
      refine ⟨by omega, ?_, ?_⟩
      · have : n + 1 - (clzLoop n x + 1) - 1 = n - clzLoop n x - 1 := by omega
        rw [this]; exact ih.2.1
      · have : n + 1 - (clzLoop n x + 1) = n - clzLoop n x := by omega
        rw [this]; exact ih.2.2

theorem bitLength_spec {x : BigInt} (hx : Canonical x) (hne : x ≠ []) :
    0 < bitLength x ∧ 2 ^ (bitLength x - 1) ≤ val x ∧ val x < 2 ^ bitLength x := by
  induction x using List.reverseRecOn with
  | nil => exact absurd rfl hne
  | append_singleton l t _ =>
    obtain ⟨hl, ht, ht0⟩ := canonical_append_singleton.1 hx
    have hc := clzLoop_spec 32 t ht0 ht
    have hv := val_lt hl
    unfold bitLength is_zero clz
    simp only [List.isEmpty_eq_true, List.append_eq_nil, List.cons_ne_self, and_false,
      if_false, List.length_append, List.length_singleton, Nat.add_sub_cancel,
      List.getLastD_concat, val_append, val_singleton]
    generalize clzLoop 32 t = z at *
    refine ⟨by omega, ?_, ?_⟩
    · have e : l.length * 32 + (32 - z) - 1 = 32 * l.length + (32 - z - 1) := by omega
      rw [e, pow_add]
      have := Nat.mul_le_mul_left (2 ^ (32 * l.length)) hc.2.1
      omega
    · have e : l.length * 32 + (32 - z) = 32 * l.length + (32 - z) := by omega
      rw [e, pow_add]
      have h1 : t + 1 ≤ 2 ^ (32 - z) := hc.2.2
      have := Nat.mul_le_mul_left (2 ^ (32 * l.length)) h1
      rw [Nat.mul_add] at this
      omega

theorem bitLength_nil : bitLength [] = 0 := rfl

/-! ### mul -/

theorem div_add_lt_of_lt {cur V P : Nat} (h : cur + 2 ^ 32 * V < 2 ^ 32 * P) :
    V + cur / 2 ^ 32 < P := by
  have := Nat.div_add_mod cur (2 ^ 32)
  have := Nat.mod_lt cur (show 0 < 2 ^ 32 by norm_num)
  by_contra hc
  have h2 : P ≤ V + cur / 2 ^ 32 := by omega
  have := Nat.mul_le_mul_left (2 ^ 32) h2
  omega

theorem mulCarryLoop_spec : ∀ (carry : Nat) (res : List Nat), Limbs res → carry < 2 ^ 32 →
    val res + carry < 2 ^ (32 * res.length) →
    ∃ out, mulCarryLoop carry res = .ok out ∧ val out = val res + carry ∧ Limbs out ∧
      out.length = res.length
  | carry, [], _, _, hb => by
    have : carry = 0 := by simpa [val] using hb
    subst this
    exact ⟨[], by simp [mulCarryLoop], rfl, limbs_nil, rfl⟩
  | carry, r :: rs, hl, hc, hb => by
    have hr := (limbs_cons.1 hl).1
    unfold mulCarryLoop
    by_cases h0 : carry > 0
    · have h64 : (r + carry) % 2 ^ 64 = r + carry := Nat.mod_eq_of_lt (by omega)
      have hb' : val rs + (r + carry) / 2 ^ 32 < 2 ^ (32 * rs.length) := by
        apply div_add_lt_of_lt
        rw [val_cons, List.length_cons] at hb
        have : 2 ^ (32 * (rs.length + 1)) = 2 ^ 32 * 2 ^ (32 * rs.length) := by ring
        omega
      obtain ⟨out, ho, hv, hlo, hlen⟩ := mulCarryLoop_spec ((r + carry) / 2 ^ 32) rs
        (limbs_cons.1 hl).2 (by omega) hb'
      simp only [h0, if_true, h64, mask_eq_mod, shr32_eq_div, Nat.mod_mod, ho, Except.map]
      refine ⟨_, rfl, ?_, limbs_cons.2 ⟨Nat.mod_lt _ (by norm_num), hlo⟩, by simp [hlen]⟩
      rw [val_cons, hv, val_cons]
      have := Nat.div_add_mod (r + carry) (2 ^ 32)
      omega
    · have : carry = 0 := by omega
      subst this
      exact ⟨r :: rs, by simp, rfl, hl, rfl⟩

theorem mulInnerLoop_spec (a_chunk : Nat) (ha : a_chunk < 2 ^ 32) :
    ∀ (bs res : List Nat) (carry : Nat), Limbs bs → Limbs res → carry < 2 ^ 32 →
    bs.length ≤ res.length →
    val res + a_chunk * val bs + carry < 2 ^ (32 * res.length) →
    ∃ out, mulInnerLoop a_chunk bs res carry = .ok out ∧
      val out = val res + a_chunk * val bs + carry ∧ Limbs out ∧ out.length = res.length
  | [], res, carry, _, hl, hc, _, hb => by
    unfold mulInnerLoop
    simp only [val_nil, Nat.mul_zero, Nat.add_zero] at hb ⊢
    exact mulCarryLoop_spec carry res hl hc hb
  | b0 :: bs, [], carry, _, _, _, hlen, _ => by simp at hlen
  | b0 :: bs, r :: rs, carry, hlb, hl, hc, hlen, hb => by
    have hr := (limbs_cons.1 hl).1
    have hb0 := (limbs_cons.1 hlb).1
    have hprod : a_chunk * b0 ≤ (2 ^ 32 - 1) * (2 ^ 32 - 1) :=
      Nat.mul_le_mul (by omega) (by omega)
    have h64 : (r + a_chunk * b0 + carry) % 2 ^ 64 = r + a_chunk * b0 + carry :=
      Nat.mod_eq_of_lt (by omega)
    have hb' : val rs + a_chunk * val bs + (r + a_chunk * b0 + carry) / 2 ^ 32
        < 2 ^ (32 * rs.length) := by
      apply div_add_lt_of_lt
      rw [val_cons, val_cons, List.length_cons] at hb
      have : 2 ^ (32 * (rs.length + 1)) = 2 ^ 32 * 2 ^ (32 * rs.length) := by ring
      rw [this] at hb
      have e : r + 2 ^ 32 * val rs + a_chunk * (b0 + 2 ^ 32 * val bs) + carry
          = r + a_chunk * b0 + carry + 2 ^ 32 * (val rs + a_chunk * val bs) := by ring
      rw [e] at hb
      exact hb
    obtain ⟨out, ho, hv, hlo, hlen'⟩ := mulInnerLoop_spec a_chunk ha bs rs
      ((r + a_chunk * b0 + carry) / 2 ^ 32) (limbs_cons.1 hlb).2 (limbs_cons.1 hl).2
      (by omega) (by simpa using hlen) hb'
    unfold mulInnerLoop
    simp only [h64, mask_eq_mod, shr32_eq_div, Nat.mod_mod, ho, Except.map]
    refine ⟨_, rfl, ?_, limbs_cons.2 ⟨Nat.mod_lt _ (by norm_num), hlo⟩, by simp [hlen']⟩
    rw [val_cons, hv, val_cons, val_cons]
    have := Nat.div_add_mod (r + a_chunk * b0 + carry) (2 ^ 32)
    generalize (r + a_chunk * b0 + carry) / 2 ^ 32 = q at *
    generalize (r + a_chunk * b0 + carry) % 2 ^ 32 = m at *
    have e2 : a_chunk * (b0 + 2 ^ 32 * val bs) = a_chunk * b0 + 2 ^ 32 * (a_chunk * val bs) := by
      ring
    rw [e2]
    generalize a_chunk * val bs = X at *
    generalize a_chunk * b0 = Y at *
    omega

theorem mulOuterLoop_spec : ∀ (as b res : List Nat), Limbs as → Limbs b → Limbs res →
    as.length + b.length ≤ res.length →
    val res + val as * val b < 2 ^ (32 * res.length) →
    ∃ out, mulOuterLoop as b res = .ok out ∧ val out = val res + val as * val b ∧ Limbs out
  | [], b, res, _, _, hl, _, _ => by
    exact ⟨res, by simp [mulOuterLoop], by simp [val], hl⟩
  | a0 :: as, b, res, hla, hlb, hl, hlen, hb => by
    have ha0 := (limbs_cons.1 hla).1
    rw [val_cons] at hb
    have hb1 : val res + a0 * val b + 0 < 2 ^ (32 * res.length) := by
      have : (a0 + 2 ^ 32 * val as) * val b = a0 * val b + 2 ^ 32 * val as * val b := by ring
      rw [this] at hb
      omega
    obtain ⟨row, hrow, hv, hlr, hlenr⟩ := mulInnerLoop_spec a0 ha0 b res 0 hlb hl (by norm_num)
      (by simp at hlen; omega) hb1
    unfold mulOuterLoop
    rw [hrow]
    cases row with
    | nil => simp at hlenr hlen; omega
    | cons r rs =>
      simp only
      have hlen2 : as.length + b.length ≤ rs.length := by
        simp at hlenr hlen; omega
      have hb2 : val rs + val as * val b < 2 ^ (32 * rs.length) := by
        rw [val_cons] at hv
        have hP : 2 ^ (32 * res.length) = 2 ^ 32 * 2 ^ (32 * rs.length) := by
          rw [← hlenr, List.length_cons]; ring
        rw [hP] at hb
        have e : val res + (a0 + 2 ^ 32 * val as) * val b
            = val res + a0 * val b + 0 + 2 ^ 32 * (val as * val b) := by ring
        rw [e, ← hv] at hb
        have hr := (limbs_cons.1 hlr).1
        generalize val as * val b = X at *
        generalize 2 ^ (32 * rs.length) = P at *
        by_contra hc
        have h2 : P ≤ val rs + X := by omega
        have := Nat.mul_le_mul_left (2 ^ 32) h2
        omega
      obtain ⟨out, ho, hvo, hlo⟩ := mulOuterLoop_spec as b rs (limbs_cons.1 hla).2 hlb
        (limbs_cons.1 hlr).2 hlen2 hb2
      rw [ho]
      refine ⟨r :: out, rfl, ?_, limbs_cons.2 ⟨(limbs_cons.1 hlr).1, hlo⟩⟩
      rw [val_cons, hvo, val_cons]
      rw [val_cons] at hv
      have e : (a0 + 2 ^ 32 * val as) * val b = a0 * val b + 2 ^ 32 * (val as * val b) := by ring
      rw [e]
      generalize val as * val b = X at *
      generalize a0 * val b = Y at *
      omega

theorem mul_spec {a b : BigInt} (ha : Canonical a) (hb : Canonical b) :
    ∃ p, mul a b = .ok p ∧ val p = val a * val b ∧ Canonical p := by
  unfold mul is_zero
  by_cases hz : a.isEmpty = true ∨ b.isEmpty = true
  · have : (a.isEmpty || b.isEmpty) = true := by simpa using hz
    rw [if_pos this]
    refine ⟨ofU64 0, rfl, ?_, canonical_ofU64 0⟩
    rw [ofU64_zero, val_nil]
    rcases hz with h | h
    · rw [List.isEmpty_iff.1 h]; simp [val]
    · rw [List.isEmpty_iff.1 h]; simp [val]
  · have : ¬ (a.isEmpty || b.isEmpty) = true := by simpa using hz
    rw [if_neg this]
    have hbound : val (List.replicate (a.length + b.length) 0) + val a * val b
        < 2 ^ (32 * (List.replicate (a.length + b.length) 0).length) := by
      rw [val_replicate_zero, List.length_replicate, Nat.zero_add, Nat.mul_add, pow_add]
      exact Nat.mul_lt_mul'' (val_lt ha.1) (val_lt hb.1)
    obtain ⟨out, ho, hv, hl⟩ := mulOuterLoop_spec a b (List.replicate (a.length + b.length) 0)
      ha.1 hb.1 (limbs_replicate_zero _) (by simp) hbound
    rw [ho]
    refine ⟨normalize out, rfl, ?_, canonical_normalize hl⟩
    rw [val_normalize, hv, val_replicate_zero, Nat.zero_add]

/-! ### divideWithRemainder -/

theorem divideLoop_spec (B : Nat) : ∀ (n : Nat) (R D Q : BigInt), Canonical R → Canonical D →
    Canonical Q → (n ≠ 0 → val D = B * 2 ^ (n - 1)) → val R < B * 2 ^ n →
    ∃ q r, divideLoop n R D Q = .ok (q, r) ∧ Canonical q ∧ Canonical r ∧
      val q * B + val r = val Q * B + val R ∧ val r < B
  | 0, R, D, Q, hR, _, hQ, _, hlt => by
    exact ⟨Q, R, rfl, hQ, hR, rfl, by simpa using hlt⟩
  | n + 1, R, D, Q, hR, hD, hQ, hDv, hlt => by
    have hDv' : val D = B * 2 ^ n := by simpa using hDv (by omega)
    have hD1 := shr1_spec hD.1
    have hDnext : n ≠ 0 → val (shr1 D) = B * 2 ^ (n - 1) := by
      intro hn
      obtain ⟨k, rfl⟩ := Nat.exists_eq_succ_of_ne_zero hn
      rw [hD1.1, hDv', Nat.succ_sub_one, pow_succ, ← Nat.mul_assoc]
      exact Nat.mul_div_cancel _ (by norm_num)
    unfold divideLoop
    by_cases hge : compare R D ≥ 0
    · have hle : val D ≤ val R := (compare_ge_iff hR hD).1 hge
      obtain ⟨R1, hs, hv, hc⟩ := subtract_ok hR hD hle
      have hone : Canonical (shlBits (ofU64 1) n) := canonical_shlBits (canonical_ofU64 1) n
      have hQ1 : Canonical (add Q (shlBits (ofU64 1) n)) := canonical_add hQ hone
      have hQv : val (add Q (shlBits (ofU64 1) n)) = val Q + 2 ^ n := by
        rw [val_add hQ.1 hone.1, val_shlBits (canonical_ofU64 1) n, ofU64_one, val_singleton,
          Nat.one_mul]
      have hsplit : B * 2 ^ (n + 1) = B * 2 ^ n + B * 2 ^ n := by rw [pow_succ]; ring
      have hlt1 : val R1 < B * 2 ^ n := by
        rw [hv, hDv']
        rw [hsplit] at hlt
        rw [hDv'] at hle
        clear hDv hDnext hsplit
        generalize B * 2 ^ n = X at *
        omega
      obtain ⟨q, r, hdl, hcq, hcr, heq, hrb⟩ := divideLoop_spec B n R1 (shr1 D) _ hc hD1.2 hQ1
        hDnext hlt1
      simp only [hge, if_true, hs]
      refine ⟨q, r, hdl, hcq, hcr, ?_, hrb⟩
      rw [heq, hQv, hv, Nat.add_mul]
      rw [hDv'] at hle ⊢
      have : 2 ^ n * B = B * 2 ^ n := Nat.mul_comm _ _
      rw [this]
      clear hDv hDnext hsplit hlt hlt1 this
      generalize B * 2 ^ n = X at *
      omega
    · have hlt1 : val R < B * 2 ^ n := by
        have : val R < val D := (compare_lt_iff hR hD).1 (by omega)
        rw [hDv'] at this
        exact this
      obtain ⟨q, r, hdl, hcq, hcr, heq, hrb⟩ := divideLoop_spec B n R (shr1 D) Q hR hD1.2 hQ
        hDnext hlt1
      simp only [hge, if_false]
      exact ⟨q, r, hdl, hcq, hcr, heq, hrb⟩

theorem divideWithRemainder_spec {a b : BigInt} (ha : Canonical a) (hb : Canonical b)
    (hb0 : b ≠ []) :
    ∃ q r, divideWithRemainder a b = .ok (q, r) ∧ Canonical q ∧ Canonical r ∧
      val q * val b + val r = val a ∧ val r < val b ∧ (compare a b < 0 → q = [] ∧ r = a) := by
  unfold divideWithRemainder
  by_cases hlt : compare a b < 0
  · have := (compare_lt_iff ha hb).1 hlt
    rw [if_pos hlt]
    refine ⟨ofU64 0, a, rfl, canonical_ofU64 0, ha, ?_, this, fun _ => ⟨ofU64_zero, rfl⟩⟩
    rw [ofU64_zero, val_nil]; omega
  · have hle : val b ≤ val a := by
      have := (compare_lt_iff ha hb).not.1 hlt
      omega
    have hbl := bitLength_spec hb hb0
    have hbpos : 0 < val b := lt_of_lt_of_le (by positivity) hbl.2.1
    have ha0 : a ≠ [] := by
      rintro rfl
      rw [val_nil] at hle; omega
    have hal := bitLength_spec ha ha0
    have hbits : bitLength b ≤ bitLength a := by
      by_contra hc
      have h1 : bitLength a ≤ bitLength b - 1 := by omega
      have h2 : 2 ^ bitLength a ≤ 2 ^ (bitLength b - 1) := Nat.pow_le_pow_right (by norm_num) h1
      omega
    rw [if_neg hlt, if_neg (by omega)]
    simp only
    have hD := shlBits_spec hb (bitLength a - bitLength b)
    have hR : val a < val b * 2 ^ (bitLength a - bitLength b + 1) := by
      have e : bitLength a = (bitLength b - 1) + (bitLength a - bitLength b + 1) := by omega
      have h1 := hal.2.2
      rw [e, pow_add] at h1
      have h2 := Nat.mul_le_mul_right (2 ^ (bitLength a - bitLength b + 1)) hbl.2.1
      omega
    obtain ⟨q, r, hdl, hcq, hcr, heq, hrb⟩ := divideLoop_spec (val b)
      (bitLength a - bitLength b + 1) a (shlBits b (bitLength a - bitLength b)) (ofU64 0)
      ha hD.2 (canonical_ofU64 0) (fun _ => by simpa using hD.1) hR
    refine ⟨q, r, hdl, hcq, hcr, ?_, hrb, fun h => absurd h hlt⟩
    rw [heq, ofU64_zero, val_nil]; omega

/-! ### the reduction loops -/

theorem subtractWhileGE_spec {m : BigInt} (hm : Canonical m) (hm0 : 0 < val m) :
    ∀ (fuel : Nat) (res : BigInt), Canonical res → val res / val m < fuel →
    ∃ r, subtractWhileGE fuel res m = .ok r ∧ val r = val res % val m ∧ Canonical r
  | 0, _, _, hf => absurd hf (Nat.not_lt_zero _)
  | fuel + 1, res, hres, hf => by
    unfold subtractWhileGE
    by_cases hge : compare res m ≥ 0
    · have hle : val m ≤ val res := (compare_ge_iff hres hm).1 hge
      obtain ⟨res1, hs, hv, hc⟩ := subtract_ok hres hm hle
      have hdiv : val res / val m = (val res - val m) / val m + 1 :=
        Nat.div_eq_sub_div hm0 hle
      obtain ⟨r, hr, hrv, hrc⟩ := subtractWhileGE_spec hm hm0 fuel res1 hc (by rw [hv]; omega)
      simp only [hge, if_true, hs]
      refine ⟨r, hr, ?_, hrc⟩
      rw [hrv, hv]
      exact (Nat.mod_eq_sub_mod hle).symm
    · have hlt : val res < val m := by
        have := (compare_ge_iff hres hm).not.1 hge
        omega
      simp only [hge, if_false]
      exact ⟨res, rfl, (Nat.mod_eq_of_lt hlt).symm, hres⟩

theorem addWhileNegative_spec {res : BigInt} (hres : Canonical res) (m : BigInt) (fuel : Nat) :
    addWhileNegative (fuel + 1) res m = .ok res := by
  have h : ¬ compare res (ofU64 0) < 0 := by
    rw [compare_lt_iff hres (canonical_ofU64 0), ofU64_zero, val_nil]; omega
  simp [addWhileNegative, h]

theorem mod_spec {a m : BigInt} (ha : Canonical a) (hm : Canonical m) (hm0 : m ≠ [])
    {fuel : Nat} (hf : val a / val m < fuel) :
    ∃ r, mod fuel a m = .ok r ∧ val r = val a % val m ∧ Canonical r := by
  have hpos : 0 < val m := Nat.pos_of_ne_zero (fun h => hm0 ((val_eq_zero_iff hm).1 h))
  obtain ⟨r, hr, hv, hc⟩ := subtractWhileGE_spec hm hpos fuel a ha hf
  obtain ⟨k, rfl⟩ : ∃ k, fuel = k + 1 :=
    Nat.exists_eq_succ_of_ne_zero (fun h0 => Nat.not_lt_zero _ (h0 ▸ hf))
  refine ⟨r, ?_, hv, hc⟩
  unfold mod
  rw [hr]
  exact addWhileNegative_spec hc m k

theorem modSafeLoop_spec {m : BigInt} (hm : Canonical m) {fuel : Nat} (hf : 2 ^ 32 ≤ fuel) :
    ∀ (cs : List Nat) (res : BigInt), Limbs cs → Canonical res → val res < val m →
    ∃ r, modSafeLoop fuel cs res m = .ok r ∧
      val r = (val res * 2 ^ (32 * cs.length) + val cs.reverse) % val m ∧ Canonical r
  | [], res, _, hres, hlt => by
    refine ⟨res, rfl, ?_, hres⟩
    simp [val, Nat.mod_eq_of_lt hlt]
  | c :: cs, res, hl, hres, hlt => by
    have hc := (limbs_cons.1 hl).1
    have hpos : 0 < val m := by omega
    have hsh := shlBits_spec hres 32
    have hcc := ofU64_spec c
    have hcv : val (ofU64 c) = c := val_ofU64 (by omega)
    have ht : Canonical (add (shlBits res 32) (ofU64 c)) := canonical_add hsh.2 hcc.2
    have htv : val (add (shlBits res 32) (ofU64 c)) = val res * 2 ^ 32 + c := by
      rw [val_add hsh.2.1 hcc.2.1, hsh.1, hcv]
    have hq : val (add (shlBits res 32) (ofU64 c)) / val m < fuel := by
      rw [htv]
      have : val res * 2 ^ 32 + c < val m * 2 ^ 32 := by
        have := Nat.mul_le_mul_right (2 ^ 32) (show val res + 1 ≤ val m from hlt)
        omega
      have : (val res * 2 ^ 32 + c) / val m < 2 ^ 32 := by
        rw [Nat.div_lt_iff_lt_mul hpos]; linarith
      omega
    obtain ⟨res1, h1, hv1, hc1⟩ := subtractWhileGE_spec hm hpos fuel _ ht hq
    obtain ⟨r, hr, hrv, hrc⟩ := modSafeLoop_spec hm hf cs res1 (limbs_cons.1 hl).2 hc1
      (by rw [hv1]; exact Nat.mod_lt _ hpos)
    unfold modSafeLoop
    rw [h1]
    refine ⟨r, hr, ?_, hrc⟩
    rw [hrv, hv1, htv, val_reverse_cons, List.length_cons]
    have hP : 2 ^ (32 * (cs.length + 1)) = 2 ^ 32 * 2 ^ (32 * cs.length) := by ring
    rw [hP]
    generalize 2 ^ (32 * cs.length) = P
    generalize val cs.reverse = V
    have e : val res * (2 ^ 32 * P) + (V + P * c) = (val res * 2 ^ 32 + c) * P + V := by ring
    rw [e]
    conv_rhs => rw [Nat.add_mod, Nat.mul_mod]
    conv_lhs => rw [Nat.add_mod, Nat.mul_mod, Nat.mod_mod]

theorem modSafe_spec {a m : BigInt} (ha : Canonical a) (hm : Canonical m) (hm0 : m ≠ [])
    {fuel : Nat} (hf : 2 ^ 32 ≤ fuel) :
    ∃ r, modSafe fuel a m = .ok r ∧ val r = val a % val m ∧ Canonical r := by
  have hpos : 0 < val m := Nat.pos_of_ne_zero (fun h => hm0 ((val_eq_zero_iff hm).1 h))
  unfold modSafe
  by_cases hlt : compare a m < 0
  · rw [if_pos hlt]
    exact ⟨a, rfl, (Nat.mod_eq_of_lt ((compare_lt_iff ha hm).1 hlt)).symm, ha⟩
  · rw [if_neg hlt]
    obtain ⟨r, hr, hv, hc⟩ := modSafeLoop_spec hm hf a.reverse [] (limbs_reverse.2 ha.1)
      canonical_nil (by simpa [val] using hpos)
    refine ⟨r, hr, ?_, hc⟩
    rw [hv]
    simp [val]

theorem modFast_spec {a m : BigInt} (ha : Canonical a) (hm : Canonical m) (hm0 : m ≠ []) :
    ∃ r, modFast a m = .ok r ∧ val r = val a % val m ∧ Canonical r := by
  obtain ⟨q, r, hd, _, hcr, heq, hlt, _⟩ := divideWithRemainder_spec ha hm hm0
  refine ⟨r, by simp [modFast, hd, Except.map], ?_, hcr⟩
  rw [← heq, Nat.add_comm, Nat.mul_comm, Nat.add_mul_mod_self_left, Nat.mod_eq_of_lt hlt]

/-! ### modSub -/

theorem modSub_of_ge {a b m : BigInt} (ha : Canonical a) (hb : Canonical b) (hm : Canonical m)
    (h : val b ≤ val a) :
    ∃ r, modSub a b m = .ok r ∧ Canonical r ∧
      val r = if val m ≤ val a - val b then val a - val b - val m else val a - val b := by
  obtain ⟨d, hs, hv, hc⟩ := subtract_ok ha hb h
  have hge : compare a b ≥ 0 := (compare_ge_iff ha hb).2 h
  unfold modSub
  simp only [hge, if_true, hs]
  by_cases hdm : compare d m ≥ 0
  · have hle : val m ≤ val d := (compare_ge_iff hc hm).1 hdm
    obtain ⟨r, hr, hrv, hrc⟩ := subtract_ok hc hm hle
    rw [if_pos hdm, hr]
    refine ⟨r, rfl, hrc, ?_⟩
    rw [hrv, hv, if_pos (by omega)]
  · have hlt : ¬ val m ≤ val d := fun h' => hdm ((compare_ge_iff hc hm).2 h')
    rw [if_neg hdm]
    refine ⟨d, rfl, hc, ?_⟩
    rw [hv, if_neg (by omega)]

theorem modSub_of_lt {a b m : BigInt} (ha : Canonical a) (hb : Canonical b) (hm : Canonical m)
    (h : val a < val b) :
    (val b - val a ≤ val m →
      ∃ r, modSub a b m = .ok r ∧ Canonical r ∧ val r = val m - (val b - val a)) ∧
    (val m < val b - val a → modSub a b m = .error .underflow) := by
  obtain ⟨d, hs, hv, hc⟩ := subtract_ok hb ha (le_of_lt h)
  have hge : ¬ compare a b ≥ 0 := fun h' => by
    have := (compare_ge_iff ha hb).1 h'
    omega
  unfold modSub
  simp only [hge, if_false, hs]
  constructor
  · intro hle
    obtain ⟨e, he, hev, hec⟩ := subtract_ok hm hc (by omega)
    have hem : ¬ compare e m ≥ 0 := fun h' => by
      have := (compare_ge_iff hec hm).1 h'
      omega
    rw [he]
    simp only [hem, if_false]
    exact ⟨e, rfl, hec, by rw [hev, hv]⟩
  · intro hlt
    rw [subtract_underflow hm hc (by omega)]

theorem hexVal_lt {c : Char} {v : Nat} (h : hexVal c = some v) : v < 16 := by
  unfold hexVal at h
  split_ifs at h with h1 h2 h3
  · have a : '0'.toNat ≤ c.toNat := h1.1
    have b : c.toNat ≤ '9'.toNat := h1.2
    simp at a b h
    omega
  · have a : 'a'.toNat ≤ c.toNat := h2.1
    have b : c.toNat ≤ 'f'.toNat := h2.2
    simp at a b h
    omega
  · have a : 'A'.toNat ≤ c.toNat := h3.1
    have b : c.toNat ≤ 'F'.toNat := h3.2
    simp at a b h
    omega

theorem hexAcc_nil (acc : Nat) : hexAcc acc [] = acc := rfl

theorem hexAcc_cons_some {c : Char} {v : Nat} (h : hexVal c = some v) (acc : Nat)
    (s : List Char) : hexAcc acc (c :: s) = hexAcc (acc * 16 + v) s := by
  simp [hexAcc, h]

theorem hexAcc_cons_none {c : Char} (h : hexVal c = none) (acc : Nat) (s : List Char) :
    hexAcc acc (c :: s) = hexAcc acc s := by
  simp [hexAcc, h]

theorem hexAcc_append (acc : Nat) (s t : List Char) :
    hexAcc acc (s ++ t) = hexAcc (hexAcc acc s) t := by
  simp [hexAcc, List.foldl_append]

theorem hexValue_reverse_cons_some {c : Char} {v : Nat} (h : hexVal c = some v)
    (cs : List Char) : hexValue (c :: cs).reverse = hexValue cs.reverse * 16 + v := by
  rw [List.reverse_cons, hexValue, hexAcc_append, hexAcc_cons_some h, hexAcc_nil, hexValue]

theorem hexValue_reverse_cons_none {c : Char} (h : hexVal c = none) (cs : List Char) :
    hexValue (c :: cs).reverse = hexValue cs.reverse := by
  rw [List.reverse_cons, hexValue, hexAcc_append, hexAcc_cons_none h, hexAcc_nil, hexValue]

/-! ### from_hex -/

theorem from_hexLoop_spec : ∀ (cs : List Char) (current bits : Nat) (chunks : BigInt),
    bits % 4 = 0 → bits < 32 → current < 2 ^ bits → Limbs chunks →
    val (from_hexLoop cs current bits chunks)
        = val chunks + 2 ^ (32 * chunks.length) * (current + 2 ^ bits * hexValue cs.reverse) ∧
      Limbs (from_hexLoop cs current bits chunks)
  | [], current, bits, chunks, _, hb, hc, hl => by
    have h32 : (2 : Nat) ^ bits < 2 ^ 32 := Nat.pow_lt_pow_right (by norm_num) hb
    unfold from_hexLoop
    by_cases h0 : bits > 0
    · have hm : current % 2 ^ 32 = current := Nat.mod_eq_of_lt (by omega)
      rw [if_pos h0, hm, val_append, val_singleton]
      refine ⟨by simp [hexValue, hexAcc], limbs_append.2 ⟨hl, ?_⟩⟩
      intro c hc'
      simp at hc'
      omega
    · have hb0 : bits = 0 := by omega
      subst hb0
      have : current = 0 := by simpa using hc
      subst this
      rw [if_neg h0]
      exact ⟨by simp [hexValue, hexAcc], hl⟩
  | c :: cs, current, bits, chunks, h4, hb, hc, hl => by
    unfold from_hexLoop
    cases hv : hexVal c with
    | none =>
      simp only
      rw [hexValue_reverse_cons_none hv]
      exact from_hexLoop_spec cs current bits chunks h4 hb hc hl
    | some v =>
      have hv16 := hexVal_lt hv
      have hbits : bits ≤ 28 := by omega
      have hp28 : (2 : Nat) ^ bits ≤ 2 ^ 28 := Nat.pow_le_pow_right (by norm_num) hbits
      have hps : 0 < 2 ^ bits := by positivity
      have hvb : v * 2 ^ bits < 2 ^ 32 := by
        have := Nat.mul_le_mul (show v ≤ 15 by omega) hp28
        omega
      have hor : current ||| (v <<< bits) % 2 ^ 64 = current + v * 2 ^ bits := by
        rw [Nat.shiftLeft_eq, Nat.mod_eq_of_lt (by omega), Nat.or_comm, or_eq_add_of_lt v hc,
          Nat.add_comm]
      have hcur : current + v * 2 ^ bits < 2 ^ (bits + 4) := by
        rw [pow_add]
        have := Nat.mul_le_mul_right (2 ^ bits) (show v + 1 ≤ 2 ^ 4 by omega)
        rw [Nat.add_mul] at this
        rw [Nat.mul_comm (2 ^ bits)]
        omega
      simp only [hor, mask_eq_mod, shr32_eq_div, Nat.mod_mod]
      rw [hexValue_reverse_cons_some hv]
      by_cases hfull : bits + 4 ≥ 32
      · have hb28 : bits = 28 := by omega
        subst hb28
        have hlt32 : current + v * 2 ^ 28 < 2 ^ 32 := by simpa using hcur
        have hl' : Limbs (chunks ++ [current + v * 2 ^ 28]) := by
          refine limbs_append.2 ⟨hl, ?_⟩
          intro d hd
          simp at hd
          omega
        have ih := from_hexLoop_spec cs 0 0 (chunks ++ [current + v * 2 ^ 28]) (by norm_num)
          (by norm_num) (by norm_num) hl'
        rw [if_pos hfull, Nat.mod_eq_of_lt hlt32, Nat.div_eq_of_lt hlt32]
        refine ⟨?_, ih.2⟩
        rw [ih.1, val_append, val_singleton, List.length_append, List.length_singleton]
        have hP : 2 ^ (32 * (chunks.length + 1)) = 2 ^ (32 * chunks.length) * 2 ^ 32 := by ring
        rw [hP]
        ring
      · have ih := from_hexLoop_spec cs (current + v * 2 ^ bits) (bits + 4) chunks (by omega)
          (by omega) hcur hl
        rw [if_neg hfull]
        refine ⟨?_, ih.2⟩
        rw [ih.1, pow_add]
        ring

theorem stripHexPrefix_prefixed (c : Char) (hc : c = 'x' ∨ c = 'X') (s : List Char) :
    stripHexPrefix ('0' :: c :: s) = s := by
  simp [stripHexPrefix, hc]

theorem from_hex_spec (hex : List Char) :
    val (from_hex hex) = hexValue (stripHexPrefix hex) ∧ Canonical (from_hex hex) := by
  have h := from_hexLoop_spec (stripHexPrefix hex).reverse 0 0 [] (by norm_num) (by norm_num)
    (by norm_num) limbs_nil
  unfold from_hex
  rw [val_normalize, h.1]
  refine ⟨by simp [val], canonical_normalize h.2⟩

/-! ### to_hex -/

theorem hexDigit_facts : ∀ k < 16, hexDigit k ∈ upperHexChars ∧ hexVal (hexDigit k) = some k := by
  decide

theorem upperHexChars_facts : ∀ c ∈ upperHexChars,
    hexDigit ((hexVal c).getD 0) = c ∧ (hexVal c).isSome = true ∧ (hexVal c).getD 0 < 16 ∧
      ((hexVal c).getD 0 = 0 → c = '0') := by
  decide

theorem length_hexFixed : ∀ (w n : Nat), (hexFixed w n).length = w
  | 0, _ => rfl
  | w + 1, n => by simp [hexFixed, length_hexFixed w]

theorem mem_hexFixed : ∀ (w n : Nat), ∀ c ∈ hexFixed w n, c ∈ upperHexChars
  | 0, _ => by simp [hexFixed]
  | w + 1, n => by
    intro c hc
    simp only [hexFixed, List.mem_append, List.mem_singleton] at hc
    rcases hc with h | h
    · exact mem_hexFixed w _ c h
    · rw [h]; exact (hexDigit_facts _ (Nat.mod_lt _ (by norm_num))).1

theorem hexAcc_hexFixed : ∀ (w n acc : Nat), hexAcc acc (hexFixed w n) = acc * 16 ^ w + n % 16 ^ w
  | 0, n, acc => by simp [hexFixed, hexAcc, Nat.mod_one]
  | w + 1, n, acc => by
    have hd := (hexDigit_facts (n % 16) (Nat.mod_lt _ (by norm_num))).2
    rw [hexFixed, hexAcc_append, hexAcc_hexFixed w, hexAcc_cons_some hd, hexAcc_nil,
      Nat.pow_succ', Nat.mod_mul]
    ring

theorem hexAcc_zero_dropWhile : ∀ (s : List Char),
    hexAcc 0 (s.dropWhile (fun c => c == '0')) = hexAcc 0 s
  | [] => rfl
  | c :: s => by
    by_cases h : c = '0'
    · subst h
      have h0 : hexVal '0' = some 0 := by decide
      rw [List.dropWhile_cons_of_pos (by simp), hexAcc_zero_dropWhile s, hexAcc_cons_some h0]
    · rw [List.dropWhile_cons_of_neg (by simpa using h)]

theorem hexValue_dropLeadingZeros (s : List Char) :
    hexValue (dropLeadingZeros s) = hexValue s := by
  unfold dropLeadingZeros hexValue
  simp only
  rw [← hexAcc_zero_dropWhile s]
  by_cases h : (s.dropWhile (fun c => c == '0')).isEmpty = true
  · rw [if_pos h, List.isEmpty_iff.1 h]
    rfl
  · rw [if_neg h]

theorem takeWhile_eq_replicate (s : List Char) :
    s.takeWhile (fun c => c == '0')
      = List.replicate (s.takeWhile (fun c => c == '0')).length '0' := by
  rw [List.eq_replicate_iff]
  refine ⟨rfl, fun c hc => ?_⟩
  simpa using (List.mem_takeWhile_imp hc)

theorem leftpad_dropLeadingZeros (s : List Char) (hs : s ≠ []) :
    List.leftpad s.length '0' (dropLeadingZeros s) = s := by
  have hsplit := List.takeWhile_append_dropWhile (fun c => c == '0') s
  have hlen : (s.takeWhile (fun c => c == '0')).length
      + (s.dropWhile (fun c => c == '0')).length = s.length := by
    rw [← List.length_append, hsplit]
  unfold dropLeadingZeros List.leftpad
  simp only
  by_cases h : (s.dropWhile (fun c => c == '0')).isEmpty = true
  · have hnil := List.isEmpty_iff.1 h
    rw [if_pos h]
    rw [hnil, List.append_nil] at hsplit
    rw [hnil, List.length_nil, Nat.add_zero] at hlen
    have hpos : 0 < s.length := List.length_pos.2 hs
    have hrep := takeWhile_eq_replicate s
    rw [hsplit] at hrep
    conv_rhs => rw [hrep]
    rw [List.length_singleton]
    obtain ⟨k, hk⟩ : ∃ k, s.length = k + 1 := ⟨s.length - 1, by omega⟩
    rw [hk, Nat.add_sub_cancel, List.replicate_succ']
  · rw [if_neg h]
    conv_rhs => rw [← hsplit, takeWhile_eq_replicate s]
    congr 2
    omega

theorem leftpad_hexString (c : Nat) : List.leftpad 8 '0' (hexString c) = hexFixed 8 c := by
  have h := leftpad_dropLeadingZeros (hexFixed 8 c)
    (by intro h0; have := length_hexFixed 8 c; rw [h0] at this; simp at this)
  rw [length_hexFixed] at h
  exact h

theorem hexAcc_to_hexLoop : ∀ (cs : List Nat) (acc : Nat), Limbs cs →
    hexAcc acc (to_hexLoop cs) = acc * 2 ^ (32 * cs.length) + val cs.reverse
  | [], acc, _ => by simp [to_hexLoop, hexAcc, val]
  | c :: cs, acc, hl => by
    have hc := (limbs_cons.1 hl).1
    rw [to_hexLoop, leftpad_hexString, hexAcc_append, hexAcc_hexFixed,
      hexAcc_to_hexLoop cs _ (limbs_cons.1 hl).2, val_reverse_cons, List.length_cons,
      show (16 : Nat) ^ 8 = 2 ^ 32 by norm_num, Nat.mod_eq_of_lt hc]
    ring

theorem hexValue_hexString {c : Nat} (hc : c < 2 ^ 32) : hexValue (hexString c) = c := by
  rw [hexString, hexValue_dropLeadingZeros, hexValue, hexAcc_hexFixed,
    show (16 : Nat) ^ 8 = 2 ^ 32 by norm_num, Nat.mod_eq_of_lt hc]
  simp

theorem to_hex_append_singleton {l : BigInt} {top : Nat} :
    to_hex (l ++ [top]) = ['0', 'x'] ++ hexString top ++ to_hexLoop l.reverse := by
  simp [to_hex, is_zero]

theorem hexValue_body {l : BigInt} {top : Nat} (hl : Limbs l) (ht : top < 2 ^ 32) :
    hexValue (hexString top ++ to_hexLoop l.reverse) = val (l ++ [top]) := by
  rw [hexValue, hexAcc_append, ← hexValue, hexValue_hexString ht,
    hexAcc_to_hexLoop _ _ (limbs_reverse.2 hl), val_append, val_singleton, List.length_reverse,
    List.reverse_reverse]
  ring

theorem mem_of_range {c : Char} {lo hi : Char} (h1 : lo ≤ c) (h2 : c ≤ hi)
    (l : List Char) (hl : ∀ n, lo.toNat ≤ n → n ≤ hi.toNat → Char.ofNat n ∈ l) : c ∈ l := by
  have a : lo.toNat ≤ c.toNat := h1
  have b : c.toNat ≤ hi.toNat := h2
  have := hl c.toNat a b
  rwa [Char.ofNat_toNat] at this

theorem mem_hexChars {c : Char} (h : IsHexDigit c) : c ∈ hexChars := by
  rcases h with ⟨h1, h2⟩ | ⟨h1, h2⟩ | ⟨h1, h2⟩
  · refine mem_of_range h1 h2 _ ?_
    intro n hn1 hn2
    simp at hn1 hn2
    interval_cases n <;> decide
  · refine mem_of_range h1 h2 _ ?_
    intro n hn1 hn2
    simp at hn1 hn2
    interval_cases n <;> decide
  · refine mem_of_range h1 h2 _ ?_
    intro n hn1 hn2
    simp at hn1 hn2
    interval_cases n <;> decide

theorem hexChars_facts : ∀ c ∈ hexChars,
    c.toUpper ∈ upperHexChars ∧ hexVal c.toUpper = hexVal c ∧ c ≠ 'x' ∧ c ≠ 'X' := by
  decide

theorem upperHexChars_toUpper : ∀ c ∈ upperHexChars, c.toUpper = c := by decide

theorem upperHexChars_isHexDigit : ∀ c ∈ upperHexChars, IsHexDigit c := by decide

theorem hexVal_of_upper {c : Char} (hc : c ∈ upperHexChars) :
    hexVal c = some (hexDigitValue c) := by
  have h := (upperHexChars_facts c hc).2.1
  unfold hexDigitValue
  cases hv : hexVal c with
  | none => rw [hv] at h; simp at h
  | some v => rfl

theorem hexValue_eq_ofDigits (s : List Char) (hs : ∀ c ∈ s, c ∈ upperHexChars) :
    hexValue s = Nat.ofDigits 16 (s.reverse.map hexDigitValue) := by
  induction s using List.reverseRecOn with
  | nil => rfl
  | append_singleton t c ih =>
    have hc : c ∈ upperHexChars := hs c (by simp)
    have ht : ∀ d ∈ t, d ∈ upperHexChars := fun d hd => hs d (by simp [hd])
    rw [hexValue, hexAcc_append, hexAcc_cons_some (hexVal_of_upper hc), hexAcc_nil, ← hexValue,
      ih ht, List.reverse_append, List.reverse_singleton, List.singleton_append, List.map_cons,
      Nat.ofDigits_cons]
    ring

theorem map_hexDigit_map (s : List Char) (hs : ∀ c ∈ s, c ∈ upperHexChars) :
    (s.map hexDigitValue).map hexDigit = s := by
  rw [List.map_map]
  conv_rhs => rw [← List.map_id s]
  apply List.map_congr_left
  intro c hc
  exact (upperHexChars_facts c (hs c hc)).1

theorem numeral_digits (s : List Char) (hs : ∀ c ∈ s, c ∈ upperHexChars)
    (h0 : s.head? ≠ some '0') :
    Nat.digits 16 (hexValue s) = s.reverse.map hexDigitValue := by
  rw [hexValue_eq_ofDigits s hs]
  apply Nat.digits_ofDigits 16 (by norm_num)
  · intro l hl
    obtain ⟨c, hc, rfl⟩ := List.mem_map.1 hl
    exact (upperHexChars_facts c (hs c (List.mem_reverse.1 hc))).2.2.1
  · intro hne hlast
    have h1 : (s.reverse.map hexDigitValue).getLast? = some 0 := by
      rw [List.getLast?_eq_getLast _ hne, hlast]
    rw [List.getLast?_map, List.getLast?_reverse] at h1
    cases hh : s.head? with
    | none => rw [hh] at h1; simp at h1
    | some c =>
      rw [hh] at h1
      have hcz : hexDigitValue c = 0 := by simpa using h1
      have hc : c ∈ s := List.mem_of_mem_head? hh
      have := (upperHexChars_facts c (hs c hc)).2.2.2 hcz
      rw [this] at hh
      exact h0 hh

theorem numeral_unique {s t : List Char} (hs : ∀ c ∈ s, c ∈ upperHexChars)
    (ht : ∀ c ∈ t, c ∈ upperHexChars) (hs0 : s.head? ≠ some '0') (ht0 : t.head? ≠ some '0')
    (h : hexValue s = hexValue t) : s = t := by
  have h1 := numeral_digits s hs hs0
  have h2 := numeral_digits t ht ht0
  rw [h, h2] at h1
  have h3 : s.map hexDigitValue = t.map hexDigitValue := by
    have := congrArg List.reverse h1
    simpa [List.map_reverse] using this.symm
  rw [← map_hexDigit_map s hs, ← map_hexDigit_map t ht, h3]

theorem head?_dropWhile_zero (s : List Char) :
    (s.dropWhile (fun c => c == '0')).head? ≠ some '0' := by
  intro h
  have := List.head?_dropWhile_not (fun c => c == '0') s
  rw [h] at this
  simp at this

theorem mem_to_hexLoop : ∀ (cs : List Nat), ∀ c ∈ to_hexLoop cs, c ∈ upperHexChars
  | [] => by simp [to_hexLoop]
  | d :: ds => by
    intro c hc
    rw [to_hexLoop, leftpad_hexString, List.mem_append] at hc
    rcases hc with h | h
    · exact mem_hexFixed 8 d c h
    · exact mem_to_hexLoop ds c h

theorem hexString_of_ne_zero {top : Nat} (h0 : top ≠ 0) (ht : top < 2 ^ 32) :
    hexString top = (hexFixed 8 top).dropWhile (fun c => c == '0') ∧ hexString top ≠ [] := by
  have hv := hexValue_hexString ht
  unfold hexString dropLeadingZeros at hv ⊢
  simp only at hv ⊢
  by_cases h : ((hexFixed 8 top).dropWhile (fun c => c == '0')).isEmpty = true
  · rw [if_pos h] at hv
    have hz : hexValue ['0'] = 0 := by decide
    exact absurd (hv.symm.trans hz) h0
  · rw [if_neg h]
    exact ⟨rfl, fun hn => h (by rw [hn]; rfl)⟩

theorem stripHexPrefix_digits {d : List Char} (hd : ∀ c ∈ d, IsHexDigit c) :
    stripHexPrefix d = d := by
  match d, hd with
  | [], _ => rfl
  | [_], _ => rfl
  | c0 :: c1 :: rest, hd =>
    have h1 := hexChars_facts c1 (mem_hexChars (hd c1 (by simp)))
    have : ¬ (c0 = '0' ∧ (c1 = 'x' ∨ c1 = 'X')) := by
      rintro ⟨_, h | h⟩
      · exact h1.2.2.1 h
      · exact h1.2.2.2 h
    simp [stripHexPrefix, this]

theorem hexAcc_map_toUpper : ∀ (d : List Char) (acc : Nat), (∀ c ∈ d, IsHexDigit c) →
    hexAcc acc (d.map Char.toUpper) = hexAcc acc d
  | [], _, _ => rfl
  | c :: cs, acc, hd => by
    have h1 := (hexChars_facts c (mem_hexChars (hd c (by simp)))).2.1
    have ih := fun a => hexAcc_map_toUpper cs a (fun x hx => hd x (by simp [hx]))
    rw [List.map_cons]
    cases hv : hexVal c with
    | none =>
      rw [hexAcc_cons_none (h1.trans hv), hexAcc_cons_none hv, ih]
    | some v =>
      rw [hexAcc_cons_some (h1.trans hv), hexAcc_cons_some hv, ih]

/-- C1. Division identity: for canonical `a` and canonical `b ≠ 0`,
`divideWithRemainder(a, b)` returns a quotient `q` and a remainder `r` with
`add(mul(q, b), r)` equal to `a` limb for limb and `compare(r, b) < 0`, that is
`value(a) = value(q) * value(b) + value(r)` with `value(r) < value(b)`; when `a < b` the
quotient is zero and the remainder is `a`. -/
theorem divideWithRemainder_identity (a b : BigInt) (ha : Canonical a) (hb : Canonical b)
    (hb0 : b ≠ []) :
    ∃ q r, divideWithRemainder a b = .ok (q, r) ∧
      (∃ p, mul q b = .ok p ∧ add p r = a) ∧ compare r b < 0 ∧
      val a = val q * val b + val r ∧ val r < val b ∧
      (compare a b < 0 → q = [] ∧ r = a) := by
  obtain ⟨q, r, hd, hcq, hcr, heq, hlt, hsmall⟩ := divideWithRemainder_spec ha hb hb0
  obtain ⟨p, hp, hpv, hpc⟩ := mul_spec hcq hb
  refine ⟨q, r, hd, ⟨p, hp, ?_⟩, (compare_lt_iff hcr hb).2 hlt, heq.symm, hlt, hsmall⟩
  apply canonical_ext (canonical_add hpc hcr) ha
  rw [val_add hpc.1 hcr.1, hpv, heq]

theorem divideWithRemainder_identity_witness :
    Canonical [5, 7] ∧ Canonical [3] ∧ ([3] : BigInt) ≠ [] ∧
      ∃ q r, divideWithRemainder [5, 7] [3] = .ok (q, r) ∧
        (∃ p, mul q [3] = .ok p ∧ add p r = [5, 7]) ∧ compare r [3] < 0 ∧
        val [5, 7] = val q * val [3] + val r ∧ val r < val [3] ∧
        (compare [5, 7] [3] < 0 → q = [] ∧ r = [5, 7]) :=
  ⟨by decide, by decide, by decide,
    divideWithRemainder_identity [5, 7] [3] (by decide) (by decide) (by decide)⟩

/-- C2. At `a = 3`, `m = 4` (canonical, `m > 1`, `gcd(3, 4) = 1`) `modInverse` returns
zero, and `modMul(3, 0, 4)` is zero, not one. -/
theorem modInverse_even_modulus_not_inverse :
    Canonical [3] ∧ Canonical [4] ∧ 1 < val [4] ∧ Nat.gcd (val [3]) (val [4]) = 1 ∧
      ∀ fuel, 8 ≤ fuel →
        modInverse fuel [3] [4] = .ok [] ∧ modMul fuel [3] [] [4] = .ok [] ∧
          modMul fuel [3] [] [4] ≠ .ok (ofU64 1) := by
  refine ⟨by decide, by decide, by decide, by decide, fun fuel h => ?_⟩
  obtain ⟨k, rfl⟩ := Nat.exists_eq_add_of_le' h
  have h2 : modMul (k + 8) [3] [] [4] = .ok [] := rfl
  exact ⟨rfl, h2, by rw [h2]; decide⟩

/-- C3. At `a = 2`, `m = 4` (canonical, `m ≠ 0`, `gcd(2, 4) = 2`) the main loop of
`modInverse` ends with `v = 1`, not `gcd(2, 4)`, and `modInverse` returns zero instead of
failing. -/
theorem modInverse_not_coprime_returns :
    Canonical [2] ∧ Canonical [4] ∧ Nat.gcd (val [2]) (val [4]) = 2 ∧
      ∀ fuel, 8 ≤ fuel →
        modInverseLoop fuel fuel [2] [4] (ofU64 1) (ofU64 0) [4] = .ok ([1], []) ∧
          modInverse fuel [2] [4] = .ok [] := by
  refine ⟨by decide, by decide, by decide, fun fuel h => ?_⟩
  obtain ⟨k, rfl⟩ := Nat.exists_eq_add_of_le' h
  exact ⟨rfl, rfl⟩

/-- C5. For canonical `a`, `b` and canonical `m ≠ 0`, with fuel for `2^32` rounds of the
reduction loop, `modAdd(a, b, m)` returns the canonical BigInt of value
`(value(a) + value(b)) mod value(m)`. -/
theorem modAdd_correct (fuel : Nat) (a b m : BigInt) (ha : Canonical a) (hb : Canonical b)
    (hm : Canonical m) (hm0 : m ≠ []) (hf : 2 ^ 32 ≤ fuel) :
    ∃ r, modAdd fuel a b m = .ok r ∧ Canonical r ∧ val r = (val a + val b) % val m := by
  obtain ⟨r, hr, hv, hc⟩ := modSafe_spec (canonical_add ha hb) hm hm0 hf
  exact ⟨r, hr, hc, by rw [hv, val_add ha.1 hb.1]⟩

theorem modAdd_correct_witness :
    Canonical [5, 1] ∧ Canonical [10, 1] ∧ Canonical [0, 2] ∧ ([0, 2] : BigInt) ≠ [] ∧
      2 ^ 32 ≤ 2 ^ 32 ∧
      ∃ r, modAdd (2 ^ 32) [5, 1] [10, 1] [0, 2] = .ok r ∧ Canonical r ∧
        val r = (val [5, 1] + val [10, 1]) % val [0, 2] :=
  ⟨by decide, by decide, by decide, by decide, by decide,
    modAdd_correct (2 ^ 32) [5, 1] [10, 1] [0, 2] (by decide) (by decide) (by decide)
      (by decide) (by decide)⟩

/-- C6. For canonical `a` and canonical `m ≠ 0`, with fuel for `2^32` rounds and for
`value(a) / value(m)` rounds of the subtraction loops, `mod`, `modSafe` and `modFast`
return the same BigInt: the canonical one of value `value(a) mod value(m)`, below `m`. -/
theorem reductions_agree (fuel : Nat) (a m : BigInt) (ha : Canonical a) (hm : Canonical m)
    (hm0 : m ≠ []) (hf : 2 ^ 32 ≤ fuel) (hf' : val a / val m < fuel) :
    ∃ r, mod fuel a m = .ok r ∧ modSafe fuel a m = .ok r ∧ modFast a m = .ok r ∧
      val r = val a % val m ∧ val r < val m ∧ Canonical r := by
  have hpos : 0 < val m := Nat.pos_of_ne_zero (fun h => hm0 ((val_eq_zero_iff hm).1 h))
  obtain ⟨r1, h1, hv1, hc1⟩ := mod_spec ha hm hm0 hf'
  obtain ⟨r2, h2, hv2, hc2⟩ := modSafe_spec ha hm hm0 hf
  obtain ⟨r3, h3, hv3, hc3⟩ := modFast_spec ha hm hm0
  have e2 : r2 = r1 := canonical_ext hc2 hc1 (by rw [hv2, hv1])
  have e3 : r3 = r1 := canonical_ext hc3 hc1 (by rw [hv3, hv1])
  subst e2 e3
  exact ⟨_, h1, h2, h3, hv1, by rw [hv1]; exact Nat.mod_lt _ hpos, hc1⟩

theorem reductions_agree_witness :
    Canonical [7, 1] ∧ Canonical [0, 1] ∧ ([0, 1] : BigInt) ≠ [] ∧ 2 ^ 32 ≤ 2 ^ 32 ∧
      val [7, 1] / val [0, 1] < 2 ^ 32 ∧
      ∃ r, mod (2 ^ 32) [7, 1] [0, 1] = .ok r ∧ modSafe (2 ^ 32) [7, 1] [0, 1] = .ok r ∧
        modFast [7, 1] [0, 1] = .ok r ∧ val r = val [7, 1] % val [0, 1] ∧
        val r < val [0, 1] ∧ Canonical r :=
  ⟨by decide, by decide, by decide, by decide, by decide,
    reductions_agree (2 ^ 32) [7, 1] [0, 1] (by decide) (by decide) (by decide) (by decide)
      (by decide)⟩

/-- C8. Hex round trip: for canonical `x`, `from_hex(to_hex(x))` has the limbs of `x`. -/
theorem from_hex_to_hex (x : BigInt) (hx : Canonical x) : from_hex (to_hex x) = x := by
  apply canonical_ext (from_hex_spec _).2 hx
  rw [(from_hex_spec _).1]
  induction x using List.reverseRecOn with
  | nil => decide
  | append_singleton l top _ =>
    obtain ⟨hl, ht, _⟩ := canonical_append_singleton.1 hx
    rw [to_hex_append_singleton]
    show hexValue (stripHexPrefix ('0' :: 'x' :: (hexString top ++ to_hexLoop l.reverse))) = _
    rw [stripHexPrefix_prefixed 'x' (Or.inl rfl), hexValue_body hl ht]

theorem from_hex_to_hex_witness :
    Canonical [5, 0, 7] ∧ from_hex (to_hex [5, 0, 7]) = [5, 0, 7] :=
  ⟨by decide, from_hex_to_hex [5, 0, 7] (by decide)⟩

theorem to_hex_of_value {x : BigInt} (hx : Canonical x) {t : List Char}
    (ht : ∀ c ∈ t, c ∈ upperHexChars) (ht0 : t.head? ≠ some '0')
    (hv : val x = hexValue t) :
    to_hex x = '0' :: 'x' :: (if t.isEmpty then ['0'] else t) := by
  induction x using List.reverseRecOn with
  | nil =>
    have : t = [] := by
      apply numeral_unique ht (by simp) ht0 (by simp)
      rw [← hv]; rfl
    subst this
    rfl
  | append_singleton l top _ =>
    obtain ⟨hl, htop, htop0⟩ := canonical_append_singleton.1 hx
    obtain ⟨hstr, hne⟩ := hexString_of_ne_zero htop0 htop
    have hmem : ∀ c ∈ hexString top ++ to_hexLoop l.reverse, c ∈ upperHexChars := by
      intro c hc
      rcases List.mem_append.1 hc with h | h
      · rw [hstr] at h
        exact mem_hexFixed 8 top c ((List.dropWhile_suffix _).subset h)
      · exact mem_to_hexLoop _ c h
    have hhead : (hexString top ++ to_hexLoop l.reverse).head? ≠ some '0' := by
      rw [List.head?_append_of_ne_nil _ hne, hstr]
      exact head?_dropWhile_zero _
    have heq : hexString top ++ to_hexLoop l.reverse = t :=
      numeral_unique hmem ht hhead ht0 (by rw [hexValue_body hl htop, hv])
    have hte : t.isEmpty = false := by
      rw [← heq]
      cases h : hexString top with
      | nil => exact absurd h hne
      | cons a as => rfl
    rw [to_hex_append_singleton, List.append_assoc, heq, hte]
    rfl

/-- C10. For a text made of an optional `0x`/`0X` prefix `p` and one or more hexadecimal
digits `d` in either case, `to_hex(from_hex(p ++ d))` is `0x` followed by the digits of
`d` upper-cased with the leading zeros dropped (`0x0` when all are zero); hence a
canonical text `0x` + `d` (`d` upper-case, `d = 0` or `d` starting with a non-zero digit)
is returned unchanged. -/
theorem to_hex_from_hex (p d : List Char)
    (hp : p = [] ∨ p = ['0', 'x'] ∨ p = ['0', 'X']) (hd : d ≠ [])
    (hdig : ∀ c ∈ d, IsHexDigit c) :
    to_hex (from_hex (p ++ d)) = '0' :: 'x' :: dropLeadingZeros (d.map Char.toUpper) ∧
      ((∀ c ∈ d, c ∈ upperHexChars) → (d.head? = some '0' → d = ['0']) →
        to_hex (from_hex ('0' :: 'x' :: d)) = '0' :: 'x' :: d) := by
  have hstrip : ∀ q, (q = [] ∨ q = ['0', 'x'] ∨ q = ['0', 'X']) →
      stripHexPrefix (q ++ d) = d := by
    rintro q (rfl | rfl | rfl)
    · exact stripHexPrefix_digits hdig
    · exact stripHexPrefix_prefixed 'x' (Or.inl rfl) d
    · exact stripHexPrefix_prefixed 'X' (Or.inr rfl) d
  have main : ∀ q, (q = [] ∨ q = ['0', 'x'] ∨ q = ['0', 'X']) →
      to_hex (from_hex (q ++ d)) = '0' :: 'x' :: dropLeadingZeros (d.map Char.toUpper) := by
    intro q hq
    have hspec := from_hex_spec (q ++ d)
    rw [hstrip q hq] at hspec
    have hup : ∀ c ∈ d.map Char.toUpper, c ∈ upperHexChars := by
      intro c hc
      obtain ⟨c', hc', rfl⟩ := List.mem_map.1 hc
      exact (hexChars_facts c' (mem_hexChars (hdig c' hc'))).1
    have hmemT : ∀ c ∈ (d.map Char.toUpper).dropWhile (fun c => c == '0'),
        c ∈ upperHexChars := fun c hc => hup c ((List.dropWhile_suffix _).subset hc)
    have hval : val (from_hex (q ++ d))
        = hexValue ((d.map Char.toUpper).dropWhile (fun c => c == '0')) := by
      rw [hspec.1]
      show hexAcc 0 d = hexAcc 0 ((d.map Char.toUpper).dropWhile (fun c => c == '0'))
      rw [hexAcc_zero_dropWhile, hexAcc_map_toUpper d 0 hdig]
    rw [to_hex_of_value hspec.2 hmemT (head?_dropWhile_zero _) hval]
    rfl
  refine ⟨main p hp, fun hupper hzero => ?_⟩
  have h := main ['0', 'x'] (Or.inr (Or.inl rfl))
  have hmap : d.map Char.toUpper = d := by
    conv_rhs => rw [← List.map_id d]
    exact List.map_congr_left (fun c hc => upperHexChars_toUpper c (hupper c hc))
  have hdrop : dropLeadingZeros d = d := by
    cases d with
    | nil => exact absurd rfl hd
    | cons c cs =>
      by_cases hc : c = '0'
      · subst hc
        rw [hzero rfl]
        rfl
      · unfold dropLeadingZeros
        simp only
        rw [List.dropWhile_cons_of_neg (by simpa using hc)]
        rfl
  rw [hmap, hdrop] at h
  exact h

theorem to_hex_from_hex_witness :
    (['0', 'X'] = ([] : List Char) ∨ ['0', 'X'] = ['0', 'x'] ∨ ['0', 'X'] = ['0', 'X']) ∧
      (['0', '1', 'a'] : List Char) ≠ [] ∧ (∀ c ∈ ['0', '1', 'a'], IsHexDigit c) ∧
      (to_hex (from_hex (['0', 'X'] ++ ['0', '1', 'a']))
          = '0' :: 'x' :: dropLeadingZeros (['0', '1', 'a'].map Char.toUpper) ∧
        ((∀ c ∈ ['0', '1', 'a'], c ∈ upperHexChars) →
          (['0', '1', 'a'].head? = some '0' → ['0', '1', 'a'] = ['0']) →
          to_hex (from_hex ('0' :: 'x' :: ['0', '1', 'a'])) = '0' :: 'x' :: ['0', '1', 'a'])) :=
  ⟨by decide, by decide, by decide,
    to_hex_from_hex ['0', 'X'] ['0', '1', 'a'] (by decide) (by decide) (by decide)⟩

/-- C12. On canonical values `compare` is the numeric order: it is -1, 0 or 1 exactly when
`value(a)` is below, equal to or above `value(b)`; so `compare(a, a) = 0`, `compare(a, b) = 0`
only for identical limbs, `compare(a, b) = -compare(b, a)`, and `compare(a, b) ≤ 0` with
`compare(b, c) ≤ 0` gives `compare(a, c) ≤ 0`. -/
theorem compare_total_order (a b c : BigInt) (ha : Canonical a) (hb : Canonical b)
    (hc : Canonical c) :
    (compare a b = -1 ↔ val a < val b) ∧ (compare a b = 0 ↔ val a = val b) ∧
      (compare a b = 1 ↔ val b < val a) ∧
      (compare a b = -1 ∨ compare a b = 0 ∨ compare a b = 1) ∧
      compare a a = 0 ∧ (compare a b = 0 → a = b) ∧ compare a b = -compare b a ∧
      (compare a b ≤ 0 → compare b c ≤ 0 → compare a c ≤ 0) := by
  have hab := compare_spec ha hb
  have hba := compare_spec hb ha
  have hbc := compare_spec hb hc
  have hac := compare_spec ha hc
  have haa := compare_spec ha ha
  refine ⟨?_, ?_, ?_, ?_, ?_, ?_, ?_, ?_⟩
  · rw [hab]; split_ifs <;> constructor <;> intro <;> first | omega | contradiction
  · rw [hab]; split_ifs <;> constructor <;> intro <;> first | omega | contradiction
  · rw [hab]; split_ifs <;> constructor <;> intro <;> first | omega | contradiction
  · rw [hab]; split_ifs <;> omega
  · rw [haa]; split_ifs <;> omega
  · intro h0
    exact canonical_ext ha hb ((compare_eq_zero_iff ha hb).1 h0)
  · rw [hab, hba]; split_ifs <;> omega
  · rw [hab, hbc, hac]
    intro h1 h2
    split_ifs at h1 h2 ⊢ <;> omega

theorem compare_total_order_witness :
    Canonical [5, 1] ∧ Canonical [7] ∧ Canonical [0, 2] ∧
      ((compare [5, 1] [7] = -1 ↔ val [5, 1] < val [7]) ∧
        (compare [5, 1] [7] = 0 ↔ val [5, 1] = val [7]) ∧
        (compare [5, 1] [7] = 1 ↔ val [7] < val [5, 1]) ∧
        (compare [5, 1] [7] = -1 ∨ compare [5, 1] [7] = 0 ∨ compare [5, 1] [7] = 1) ∧
        compare [5, 1] [5, 1] = 0 ∧ (compare [5, 1] [7] = 0 → [5, 1] = [7]) ∧
        compare [5, 1] [7] = -compare [7] [5, 1] ∧
        (compare [5, 1] [7] ≤ 0 → compare [7] [0, 2] ≤ 0 → compare [5, 1] [0, 2] ≤ 0)) :=
  ⟨by decide, by decide, by decide,
    compare_total_order [5, 1] [7] [0, 2] (by decide) (by decide) (by decide)⟩

/-- C13. For canonical `a`, `b`, `subtract(a, b)` fails, with the underflow error, exactly
when `value(a) < value(b)`; when `value(a) ≥ value(b)` it returns the canonical BigInt of
value `value(a) - value(b)`. -/
theorem subtract_fails_iff_underflow (a b : BigInt) (ha : Canonical a) (hb : Canonical b) :
    ((∃ e, subtract a b = .error e) ↔ val a < val b) ∧
      (subtract a b = .error .underflow ↔ val a < val b) ∧
      (val b ≤ val a → ∃ r, subtract a b = .ok r ∧ Canonical r ∧ val r = val a - val b) := by
  have hok : val b ≤ val a → ∃ r, subtract a b = .ok r ∧ Canonical r ∧ val r = val a - val b := by
    intro h
    obtain ⟨r, hr, hv, hc⟩ := subtract_ok ha hb h
    exact ⟨r, hr, hc, hv⟩
  refine ⟨⟨?_, fun h => ⟨_, subtract_underflow ha hb h⟩⟩,
    ⟨?_, fun h => subtract_underflow ha hb h⟩, hok⟩
  · rintro ⟨e, he⟩
    by_contra hlt
    obtain ⟨r, hr, _⟩ := hok (by omega)
    rw [hr] at he
    cases he
  · intro he
    by_contra hlt
    obtain ⟨r, hr, _⟩ := hok (by omega)
    rw [hr] at he
    cases he

theorem subtract_fails_iff_underflow_witness :
    Canonical [3, 1] ∧ Canonical [5] ∧
      (((∃ e, subtract [3, 1] [5] = .error e) ↔ val [3, 1] < val [5]) ∧
        (subtract [3, 1] [5] = .error .underflow ↔ val [3, 1] < val [5]) ∧
        (val [5] ≤ val [3, 1] →
          ∃ r, subtract [3, 1] [5] = .ok r ∧ Canonical r ∧ val r = val [3, 1] - val [5])) :=
  ⟨by decide, by decide, subtract_fails_iff_underflow [3, 1] [5] (by decide) (by decide)⟩

/-- C14. For canonical `a`, `b` with `a ≥ b`, `subtract(a, b)` returns a value `d` and
`add(d, b)` has the limbs of `a`. -/
theorem add_subtract_inverse (a b : BigInt) (ha : Canonical a) (hb : Canonical b)
    (h : val b ≤ val a) :
    compare a b ≥ 0 ∧ ∃ d, subtract a b = .ok d ∧ add d b = a := by
  obtain ⟨d, hd, hv, hc⟩ := subtract_ok ha hb h
  refine ⟨(compare_ge_iff ha hb).2 h, d, hd, ?_⟩
  apply canonical_ext (canonical_add hc hb) ha
  rw [val_add hc.1 hb.1, hv]
  omega

theorem add_subtract_inverse_witness :
    Canonical [3, 1] ∧ Canonical [5] ∧ val [5] ≤ val [3, 1] ∧
      (compare [3, 1] [5] ≥ 0 ∧ ∃ d, subtract [3, 1] [5] = .ok d ∧ add d [5] = [3, 1]) :=
  ⟨by decide, by decide, by decide,
    add_subtract_inverse [3, 1] [5] (by decide) (by decide) (by decide)⟩

theorem subtract_zero {a : BigInt} (ha : Canonical a) : subtract a [] = .ok a := by
  obtain ⟨r, hr, hv, hc⟩ := subtract_ok ha canonical_nil (by simp [val])
  have : r = a := canonical_ext hc ha (by rw [hv]; simp [val])
  rw [hr, this]

theorem shr1_nil : shr1 [] = [] := by decide

theorem divideLoop_zero_divisor : ∀ (n : Nat) (R Q : BigInt), Canonical R → Canonical Q →
    ∃ q, divideLoop n R [] Q = .ok (q, R) ∧ Canonical q ∧ val q + 1 = val Q + 2 ^ n
  | 0, R, Q, _, hQ => ⟨Q, rfl, hQ, by simp⟩
  | n + 1, R, Q, hR, hQ => by
    have hge : compare R [] ≥ 0 := (compare_ge_iff hR canonical_nil).2 (by simp [val])
    have hone : Canonical (shlBits (ofU64 1) n) := canonical_shlBits (canonical_ofU64 1) n
    have hQ1 : Canonical (add Q (shlBits (ofU64 1) n)) := canonical_add hQ hone
    have hQv : val (add Q (shlBits (ofU64 1) n)) = val Q + 2 ^ n := by
      rw [val_add hQ.1 hone.1, val_shlBits (canonical_ofU64 1) n, ofU64_one, val_singleton,
        Nat.one_mul]
    obtain ⟨q, hq, hqc, hqv⟩ := divideLoop_zero_divisor n R _ hR hQ1
    unfold divideLoop
    simp only [hge, if_true, subtract_zero hR, shr1_nil]
    refine ⟨q, hq, hqc, ?_⟩
    rw [hqv, hQv, pow_succ]
    omega

/-- C15, counterexample. The call `divideWithRemainder(5, 0)` reports no failure: it
returns the quotient 15 and the remainder 5. -/
theorem divideWithRemainder_zero_divisor_counterexample :
    Canonical [5] ∧ divideWithRemainder [5] [] = .ok ([15], [5]) ∧
      ¬ ∃ e, divideWithRemainder [5] [] = .error e := by
  refine ⟨by decide, by decide, ?_⟩
  rintro ⟨e, he⟩
  have h : divideWithRemainder [5] [] = .ok ([15], [5]) := by decide
  rw [h] at he
  cases he

/-- C15, amended. The function `divideWithRemainder` has no test of the divisor: for
canonical `a` and `b = 0` the call reports no failure and returns the remainder `a` with
the quotient `2^(bitLength(a) + 1) - 1`; a non-zero divisor is left to the caller. -/
theorem divideWithRemainder_zero_divisor (a : BigInt) (ha : Canonical a) :
    ∃ q, divideWithRemainder a [] = .ok (q, a) ∧ Canonical q ∧
      val q = 2 ^ (bitLength a + 1) - 1 := by
  have hlt : ¬ compare a [] < 0 := by
    rw [compare_lt_iff ha canonical_nil]; simp [val]
  obtain ⟨q, hq, hqc, hqv⟩ := divideLoop_zero_divisor (bitLength a + 1) a (ofU64 0) ha
    (canonical_ofU64 0)
  refine ⟨q, ?_, hqc, ?_⟩
  · unfold divideWithRemainder
    rw [if_neg hlt, if_neg (by simp [bitLength_nil])]
    simp only [bitLength_nil, Nat.sub_zero]
    have : shlBits [] (bitLength a) = [] := rfl
    rw [this]
    exact hq
  · rw [ofU64_zero, val_nil] at hqv
    omega

theorem divideWithRemainder_zero_divisor_witness :
    Canonical [7, 1] ∧
      ∃ q, divideWithRemainder [7, 1] [] = .ok (q, [7, 1]) ∧ Canonical q ∧
        val q = 2 ^ (bitLength [7, 1] + 1) - 1 :=
  ⟨by decide, divideWithRemainder_zero_divisor [7, 1] (by decide)⟩

theorem skip_iff_not_isDigit (c : Char) : (c < '0' ∨ c > '9') ↔ c.isDigit = false := by
  have h1 : c < '0' ↔ c.toNat < 48 := Iff.rfl
  have h2 : c > '9' ↔ 57 < c.toNat := Iff.rfl
  have h3 : c.isDigit = (decide (c.val ≥ 48) && decide (c.val ≤ 57)) := rfl
  have h4 : c.val ≥ 48 ↔ 48 ≤ c.toNat := Iff.rfl
  have h5 : c.val ≤ 57 ↔ c.toNat ≤ 57 := Iff.rfl
  rw [h1, h2, h3]
  simp only [Bool.and_eq_false_imp, decide_eq_true_eq, decide_eq_false_iff_not, h4, h5]
  omega

theorem decAcc_cons_digit {c : Char} (h : c.isDigit = true) (acc : Nat) (s : List Char) :
    decAcc acc (c :: s) = decAcc (acc * 10 + (c.toNat - 48)) s := by
  simp [decAcc, h]

theorem decAcc_cons_skip {c : Char} (h : c.isDigit = false) (acc : Nat) (s : List Char) :
    decAcc acc (c :: s) = decAcc acc s := by
  simp [decAcc, h]

theorem digit_lt_ten {c : Char} (h : c.isDigit = true) : c.toNat - 48 < 10 := by
  have h3 : c.isDigit = (decide (c.val ≥ 48) && decide (c.val ≤ 57)) := rfl
  have h5 : c.val ≤ 57 ↔ c.toNat ≤ 57 := Iff.rfl
  rw [h3] at h
  simp only [Bool.and_eq_true, decide_eq_true_eq, h5] at h
  omega

theorem from_decimalLoop_spec : ∀ (cs : List Char) (result : BigInt), Canonical result →
    ∃ r, from_decimalLoop cs result = .ok r ∧ Canonical r ∧ val r = decAcc (val result) cs
  | [], result, h => ⟨result, rfl, h, rfl⟩
  | c :: cs, result, h => by
    unfold from_decimalLoop
    by_cases hs : c < '0' ∨ c > '9'
    · rw [if_pos hs, decAcc_cons_skip ((skip_iff_not_isDigit c).1 hs)]
      exact from_decimalLoop_spec cs result h
    · have hd : c.isDigit = true := by
        cases hc : c.isDigit with
        | true => rfl
        | false => exact absurd ((skip_iff_not_isDigit c).2 hc) hs
      have hlt := digit_lt_ten hd
      obtain ⟨p, hp, hpv, hpc⟩ := mul_spec h (canonical_ofU64 10)
      have h10 : val (ofU64 10) = 10 := val_ofU64 (by norm_num)
      have hdig : val (ofU64 (c.toNat - 48)) = c.toNat - 48 := val_ofU64 (by omega)
      have hsum : Canonical (add p (ofU64 (c.toNat - 48))) :=
        canonical_add hpc (canonical_ofU64 _)
      obtain ⟨r, hr, hrc, hrv⟩ := from_decimalLoop_spec cs _ hsum
      rw [if_neg hs]
      simp only [hp]
      refine ⟨r, hr, hrc, ?_⟩
      rw [hrv, val_add hpc.1 (canonical_ofU64 _).1, hpv, h10, hdig, decAcc_cons_digit hd]

theorem decAcc_no_digit : ∀ (s : List Char) (acc : Nat), (∀ c ∈ s, c.isDigit = false) →
    decAcc acc s = acc
  | [], _, _ => rfl
  | c :: cs, acc, h => by
    rw [decAcc_cons_skip (h c (by simp))]
    exact decAcc_no_digit cs acc (fun d hd => h d (by simp [hd]))

/-- C17. For every text `s`, `from_decimal(s)` returns the canonical BigInt whose value is
the base-10 number formed by the characters of `s` in `0`..`9`, in order, every other
character being skipped; it is zero when `s` has no digit. -/
theorem from_decimal_value (s : List Char) :
    ∃ r, from_decimal s = .ok r ∧ Canonical r ∧ val r = decValue s ∧
      ((∀ c ∈ s, c.isDigit = false) → r = []) := by
  obtain ⟨r, hr, hc, hv⟩ := from_decimalLoop_spec s [] canonical_nil
  refine ⟨r, hr, hc, hv, fun h => ?_⟩
  apply (val_eq_zero_iff hc).1
  rw [hv, val_nil, decAcc_no_digit s 0 h]

/-! ### from_hex on any text -/

theorem hexValue_stripHexPrefix (s : List Char) : hexValue (stripHexPrefix s) = hexValue s := by
  have h0 : hexVal '0' = some 0 := by decide
  have hx : hexVal 'x' = none := by decide
  have hX : hexVal 'X' = none := by decide
  match s with
  | [] => rfl
  | [_] => rfl
  | c0 :: c1 :: rest =>
    by_cases h : c0 = '0' ∧ (c1 = 'x' ∨ c1 = 'X')
    · obtain ⟨rfl, rfl | rfl⟩ := h
      · rw [stripHexPrefix_prefixed 'x' (Or.inl rfl), hexValue, hexValue, hexAcc_cons_some h0,
          hexAcc_cons_none hx]
      · rw [stripHexPrefix_prefixed 'X' (Or.inr rfl), hexValue, hexValue, hexAcc_cons_some h0,
          hexAcc_cons_none hX]
    · simp [stripHexPrefix, h]

theorem hexVal_eq_none_iff (c : Char) : hexVal c = none ↔ ¬ IsHexDigit c := by
  unfold hexVal IsHexDigit
  split_ifs with h1 h2 h3
  · simp [h1]
  · simp [h2]
  · simp [h3]
  · simp [h1, h2, h3]

/-- C18. For every text `s`, `from_hex(s)` is the canonical BigInt whose value is the
base-16 number formed by the hexadecimal digit characters of `s`, in order, every other
character being skipped: a character is skipped exactly when it is no hexadecimal digit,
and the digit `k` reads the same in upper and in lower case. A leading `0x` or `0X` does
not change the result: `from_hex("0x" + t) = from_hex(t)` for every `t`. -/
theorem from_hex_value (s t : List Char) :
    Canonical (from_hex s) ∧ val (from_hex s) = hexValue s ∧
      from_hex ('0' :: 'x' :: t) = from_hex t ∧ from_hex ('0' :: 'X' :: t) = from_hex t ∧
      (∀ c, hexVal c = none ↔ ¬ IsHexDigit c) ∧
      (∀ k < 16, hexVal (hexDigit k) = some k ∧ hexVal (hexDigit k).toLower = some k) := by
  have hval : ∀ u, val (from_hex u) = hexValue u := fun u => by
    rw [(from_hex_spec u).1, hexValue_stripHexPrefix]
  refine ⟨(from_hex_spec s).2, hval s, ?_, ?_, hexVal_eq_none_iff, by decide⟩
  · apply canonical_ext (from_hex_spec _).2 (from_hex_spec _).2
    rw [(from_hex_spec _).1, stripHexPrefix_prefixed 'x' (Or.inl rfl), hval]
  · apply canonical_ext (from_hex_spec _).2 (from_hex_spec _).2
    rw [(from_hex_spec _).1, stripHexPrefix_prefixed 'X' (Or.inr rfl), hval]

/-! ### mul stays inside the result vector -/

theorem except_map_ok {α β : Type} {x : Except Error α} {f : α → β} {y : β}
    (h : x.map f = .ok y) : ∃ t, x = .ok t ∧ y = f t := by
  cases x with
  | error e => cases h
  | ok t => exact ⟨t, rfl, by cases h; rfl⟩

theorem mulCarryLoop_length : ∀ (carry : Nat) (res out : List Nat),
    mulCarryLoop carry res = .ok out → out.length = res.length
  | carry, [], out, h => by
    unfold mulCarryLoop at h
    split_ifs at h
    cases h; rfl
  | carry, r :: rs, out, h => by
    unfold mulCarryLoop at h
    split_ifs at h
    · obtain ⟨t, ht, rfl⟩ := except_map_ok h
      simp [mulCarryLoop_length _ rs t ht]
    · cases h; rfl

theorem mulInnerLoop_length (a_chunk : Nat) : ∀ (bs res : List Nat) (carry : Nat)
    (out : List Nat), mulInnerLoop a_chunk bs res carry = .ok out → out.length = res.length
  | [], res, carry, out, h => by
    unfold mulInnerLoop at h
    exact mulCarryLoop_length carry res out h
  | _ :: _, [], _, out, h => by
    unfold mulInnerLoop at h
    cases h
  | b0 :: bs, r :: rs, carry, out, h => by
    unfold mulInnerLoop at h
    obtain ⟨t, ht, rfl⟩ := except_map_ok h
    simp [mulInnerLoop_length a_chunk bs rs _ t ht]

theorem mulOuterLoop_length : ∀ (as b res out : List Nat),
    mulOuterLoop as b res = .ok out → out.length = res.length
  | [], b, res, out, h => by
    unfold mulOuterLoop at h
    cases h; rfl
  | a0 :: as, b, res, out, h => by
    unfold mulOuterLoop at h
    cases hrow : mulInnerLoop a0 b res 0 with
    | error e => rw [hrow] at h; cases h
    | ok row =>
      have hlen := mulInnerLoop_length a0 b res 0 row hrow
      rw [hrow] at h
      cases row with
      | nil =>
        simp only at h
        rw [mulOuterLoop_length as b [] out h, hlen]
      | cons r rs =>
        simp only at h
        obtain ⟨t, ht, rfl⟩ := except_map_ok h
        rw [← hlen]
        simp [mulOuterLoop_length as b rs t ht]

/-- C19. For canonical `a`, `b`, `mul(a, b)` returns the canonical BigInt of value
`value(a) * value(b)` (zero when either is zero); when both are non-zero the
accumulation over the `a.size + b.size` limbs of `result` meets no index outside that
vector, the carry loop included, and leaves its length unchanged. -/
theorem mul_exact_in_bounds (a b : BigInt) (ha : Canonical a) (hb : Canonical b) :
    ∃ p, mul a b = .ok p ∧ mul a b ≠ .error .outOfBounds ∧ Canonical p ∧
      val p = val a * val b ∧ ((a = [] ∨ b = []) → p = []) ∧
      (a ≠ [] → b ≠ [] →
        ∃ res, mulOuterLoop a b (List.replicate (a.length + b.length) 0) = .ok res ∧
          res.length = a.length + b.length ∧ p = normalize res) := by
  obtain ⟨p, hp, hv, hc⟩ := mul_spec ha hb
  have hne : mul a b ≠ .error .outOfBounds := by
    rw [hp]
    intro h
    cases h
  refine ⟨p, hp, hne, hc, hv, ?_, ?_⟩
  · intro h0
    apply (val_eq_zero_iff hc).1
    rcases h0 with rfl | rfl <;> simp [hv, val]
  · intro ha0 hb0
    have hz : (is_zero a || is_zero b) = false := by
      cases a with
      | nil => exact absurd rfl ha0
      | cons _ _ =>
        cases b with
        | nil => exact absurd rfl hb0
        | cons _ _ => rfl
    unfold mul at hp
    rw [hz] at hp
    simp only [Bool.false_eq_true, if_false] at hp
    obtain ⟨res, hres, rfl⟩ := except_map_ok hp
    refine ⟨res, hres, ?_, rfl⟩
    rw [mulOuterLoop_length _ _ _ _ hres, List.length_replicate]

theorem mul_exact_in_bounds_witness :
    Canonical [4294967295, 4294967295] ∧ Canonical [4294967295, 7] ∧
      ∃ p, mul [4294967295, 4294967295] [4294967295, 7] = .ok p ∧
        mul [4294967295, 4294967295] [4294967295, 7] ≠ .error .outOfBounds ∧ Canonical p ∧
        val p = val [4294967295, 4294967295] * val [4294967295, 7] ∧
        ((([4294967295, 4294967295] : BigInt) = [] ∨ ([4294967295, 7] : BigInt) = []) →
          p = []) ∧
        (([4294967295, 4294967295] : BigInt) ≠ [] → ([4294967295, 7] : BigInt) ≠ [] →
          ∃ res, mulOuterLoop [4294967295, 4294967295] [4294967295, 7]
              (List.replicate (([4294967295, 4294967295] : BigInt).length
                + ([4294967295, 7] : BigInt).length) 0) = .ok res ∧
            res.length = ([4294967295, 4294967295] : BigInt).length
              + ([4294967295, 7] : BigInt).length ∧ p = normalize res) :=
  ⟨by decide, by decide,
    mul_exact_in_bounds [4294967295, 4294967295] [4294967295, 7] (by decide) (by decide)⟩

/-! ### every value produced is canonical -/

theorem limbs_subtractLoop : ∀ (a b : BigInt) (borrow : Int), Limbs (subtractLoop a b borrow)
  | [], _, _ => limbs_nil
  | a0 :: as, b, borrow => by
    unfold subtractLoop
    simp only
    split_ifs
    · exact limbs_cons.2 ⟨by omega, limbs_subtractLoop as b.tail (-1)⟩
    · exact limbs_cons.2 ⟨by omega, limbs_subtractLoop as b.tail 0⟩

theorem canonical_of_subtract {a b r : BigInt} (h : subtract a b = .ok r) : Canonical r := by
  unfold subtract at h
  split_ifs at h
  cases h
  exact canonical_normalize (limbs_subtractLoop a b 0)

theorem limbs_shr1Loop : ∀ (cs : List Nat) (carry : Nat), Limbs (shr1Loop cs carry)
  | [], _ => limbs_nil
  | c :: cs, carry => by
    unfold shr1Loop
    exact limbs_cons.2 ⟨Nat.mod_lt _ (by norm_num), limbs_shr1Loop cs _⟩

theorem canonical_shr1 (x : BigInt) : Canonical (shr1 x) :=
  canonical_normalize (limbs_reverse.2 (limbs_shr1Loop _ _))

theorem limbs_divideByTenLoop : ∀ (cs : List Nat) (carry : Nat),
    Limbs (divideByTenLoop cs carry)
  | [], _ => limbs_nil
  | c :: cs, carry => by
    unfold divideByTenLoop
    exact limbs_cons.2 ⟨Nat.mod_lt _ (by norm_num), limbs_divideByTenLoop cs _⟩

theorem canonical_divideByTen (a : BigInt) : Canonical (divideByTen a) :=
  canonical_normalize (limbs_reverse.2 (limbs_divideByTenLoop _ _))

theorem canonical_of_modSub {a b m r : BigInt} (h : modSub a b m = .ok r) : Canonical r := by
  unfold modSub at h
  simp only at h
  split at h
  · cases h
  · rename_i d hd
    have hdc : Canonical d := by
      split_ifs at hd
      · exact canonical_of_subtract hd
      · split at hd
        · cases hd
        · exact canonical_of_subtract hd
    split_ifs at h
    · exact canonical_of_subtract h
    · cases h; exact hdc

theorem canonical_of_subtractWhileGE {m : BigInt} : ∀ (fuel : Nat) (res r : BigInt),
    Canonical res → subtractWhileGE fuel res m = .ok r → Canonical r
  | 0, _, _, _, h => by cases h
  | fuel + 1, res, r, hres, h => by
    unfold subtractWhileGE at h
    split_ifs at h
    · split at h
      · cases h
      · rename_i res1 h1
        exact canonical_of_subtractWhileGE fuel res1 r (canonical_of_subtract h1) h
    · cases h; exact hres

theorem canonical_of_addWhileNegative {m : BigInt} (hm : Canonical m) :
    ∀ (fuel : Nat) (res r : BigInt), Canonical res → addWhileNegative fuel res m = .ok r →
      Canonical r
  | 0, _, _, _, h => by cases h
  | fuel + 1, res, r, hres, h => by
    unfold addWhileNegative at h
    split_ifs at h
    · exact canonical_of_addWhileNegative hm fuel _ r (canonical_add hres hm) h
    · cases h; exact hres

theorem canonical_of_mod {fuel : Nat} {a m r : BigInt} (ha : Canonical a) (hm : Canonical m)
    (h : mod fuel a m = .ok r) : Canonical r := by
  unfold mod at h
  split at h
  · cases h
  · rename_i res hres
    exact canonical_of_addWhileNegative hm fuel res r
      (canonical_of_subtractWhileGE fuel a res ha hres) h

theorem canonical_of_halveWhileEven {m : BigInt} : ∀ (fuel : Nat) (u r u1 r1 : BigInt),
    Canonical u → Canonical r → halveWhileEven fuel u r m = .ok (u1, r1) →
      Canonical u1 ∧ Canonical r1
  | 0, _, _, _, _, _, _, h => by cases h
  | fuel + 1, u, r, u1, r1, hu, hr, h => by
    unfold halveWhileEven at h
    by_cases he : is_even u = true
    · rw [if_pos he] at h
      exact canonical_of_halveWhileEven fuel _ _ u1 r1 (canonical_shr1 _) (canonical_shr1 _) h
    · rw [if_neg he] at h
      cases h
      exact ⟨hu, hr⟩

theorem canonical_of_modInverseLoop {m : BigInt} (fuel : Nat) :
    ∀ (n : Nat) (u v r s v' s' : BigInt), Canonical u → Canonical v → Canonical r →
      Canonical s → modInverseLoop fuel n u v r s m = .ok (v', s') →
      Canonical v' ∧ Canonical s'
  | 0, _, _, _, _, _, _, _, _, _, _, h => by cases h
  | n + 1, u, v, r, s, v', s', hu, hv, hr, hs, h => by
    unfold modInverseLoop at h
    split_ifs at h
    · split at h
      · cases h
      · rename_i u1 r1 h1
        have hc1 := canonical_of_halveWhileEven fuel u r u1 r1 hu hr h1
        split at h
        · cases h
        · rename_i v1 s1 h2
          have hc2 := canonical_of_halveWhileEven fuel v s v1 s1 hv hs h2
          split_ifs at h
          · split at h
            · rename_i u2 r2 hu2 hr2
              exact canonical_of_modInverseLoop fuel n u2 v1 r2 s1 v' s'
                (canonical_of_subtract hu2) hc2.1 (canonical_of_modSub hr2) hc2.2 h
            · cases h
            · cases h
          · split at h
            · rename_i v2 s2 hv2 hs2
              exact canonical_of_modInverseLoop fuel n u1 v2 r1 s2 v' s'
                hc1.1 (canonical_of_subtract hv2) hc1.2 (canonical_of_modSub hs2) h
            · cases h
            · cases h
    · cases h; exact ⟨hv, hs⟩

theorem canonical_of_modInverse {fuel : Nat} {a m r : BigInt} (ha : Canonical a)
    (hm : Canonical m) (h : modInverse fuel a m = .ok r) : Canonical r := by
  unfold modInverse at h
  by_cases hz : is_zero m = true
  · rw [if_pos hz] at h
    split at h <;> cases h
  · rw [if_neg hz] at h
    split at h
    · cases h
    · rename_i a1 ha1
      have hc1 := canonical_of_mod ha hm ha1
      by_cases hz1 : is_zero a1 = true
      · rw [if_pos hz1] at h
        split at h <;> cases h
      · rw [if_neg hz1] at h
        split at h
        · cases h
        · rename_i v s hloop
          have hc := canonical_of_modInverseLoop fuel fuel a1 m (ofU64 1) (ofU64 0) v s hc1 hm
            (canonical_ofU64 1) (canonical_ofU64 0) hloop
          by_cases hcmp : compare v (ofU64 1) ≠ 0
          · rw [if_pos hcmp] at h
            split at h <;> cases h
          · rw [if_neg hcmp] at h
            exact canonical_of_mod hc.2 hm h

theorem divideWithRemainder_canonical {a b : BigInt} (ha : Canonical a) (hb : Canonical b) :
    ∃ q r, divideWithRemainder a b = .ok (q, r) ∧ Canonical q ∧ Canonical r := by
  by_cases hb0 : b = []
  · subst hb0
    obtain ⟨q, hq, hqc, _⟩ := divideWithRemainder_zero_divisor a ha
    exact ⟨q, a, hq, hqc, ha⟩
  · obtain ⟨q, r, hd, hqc, hrc, _⟩ := divideWithRemainder_spec ha hb hb0
    exact ⟨q, r, hd, hqc, hrc⟩

theorem modInverseLoop_succ (fuel n : Nat) (u v r s m : BigInt) :
    modInverseLoop fuel (n + 1) u v r s m =
      if !is_zero u then
        match modInverseBody fuel u v r s m with
        | .error e => .error e
        | .ok (u2, v2, r2, s2) => modInverseLoop fuel n u2 v2 r2 s2 m
      else .ok (v, s) := by
  rw [modInverseLoop, modInverseBody]
  by_cases hz : (!is_zero u) = true
  · rw [if_pos hz, if_pos hz]
    cases h1 : halveWhileEven fuel u r m with
    | error e => rfl
    | ok p1 =>
      obtain ⟨u1, r1⟩ := p1
      cases h2 : halveWhileEven fuel v s m with
      | error e => rfl
      | ok p2 =>
        obtain ⟨v1, s1⟩ := p2
        simp only
        by_cases hc : compare u1 v1 ≥ 0
        · rw [if_pos hc, if_pos hc]
          cases subtract u1 v1 <;> cases modSub r1 s1 m <;> rfl
        · rw [if_neg hc, if_neg hc]
          cases subtract v1 u1 <;> cases modSub s1 r1 m <;> rfl
  · rw [if_neg hz, if_neg hz]

theorem is_even_iff (x : BigInt) : is_even x = true ↔ val x % 2 = 0 := by
  cases x with
  | nil => simp [is_even, is_zero, val]
  | cons c cs =>
    simp only [is_even, is_zero, List.isEmpty_cons, Bool.false_eq_true, if_false,
      List.headD_cons, Nat.and_one_is_mod, beq_iff_eq, val_cons]
    omega

theorem coprime_two_of_odd {w : Nat} (h : w % 2 = 1) : Nat.Coprime 2 w := by
  rw [Nat.Prime.coprime_iff_not_dvd Nat.prime_two, Nat.dvd_iff_mod_eq_zero]
  omega

theorem gcd_half {x w : Nat} (hx : x % 2 = 0) (hw : w % 2 = 1) :
    Nat.gcd (x / 2) w = Nat.gcd x w := by
  have h := Nat.Coprime.gcd_mul_left_cancel (x / 2) (coprime_two_of_odd hw)
  rw [← h]
  congr 1
  omega

theorem halve_coefficient {M r u X : Nat} (hM : M % 2 = 1) (hu : u % 2 = 0)
    (h : r * X ≡ u [MOD M]) :
    (if r % 2 = 1 then r + M else r) / 2 * X ≡ u / 2 [MOD M] := by
  have hcop : Nat.gcd M 2 = 1 := Nat.Coprime.symm (coprime_two_of_odd hM)
  apply Nat.ModEq.cancel_left_of_coprime hcop
  have h2 : 2 * (u / 2) = u := by omega
  have h3 : 2 * ((if r % 2 = 1 then r + M else r) / 2) = if r % 2 = 1 then r + M else r := by
    split_ifs <;> omega
  rw [h2, ← Nat.mul_assoc, h3]
  refine Nat.ModEq.trans ?_ h
  apply Nat.ModEq.mul_right
  split_ifs
  · exact Nat.add_mod_right r M
  · rfl

theorem halveWhileEven_spec {m : BigInt} (hm : Canonical m) :
    ∀ (fuel : Nat) (u r : BigInt), Canonical u → Canonical r → 0 < val u → val u < fuel →
    ∃ u1 r1, halveWhileEven fuel u r m = .ok (u1, r1) ∧ Canonical u1 ∧ Canonical r1 ∧
      val u1 % 2 = 1 ∧ 0 < val u1 ∧ val u1 ≤ val u ∧
      (∀ w, w % 2 = 1 → Nat.gcd (val u1) w = Nat.gcd (val u) w) ∧
      (val u % 2 = 1 → u1 = u ∧ r1 = r) ∧
      (val r < val m → val r1 < val m) ∧
      (val m % 2 = 1 → ∀ X, val r * X ≡ val u [MOD val m] → val r1 * X ≡ val u1 [MOD val m])
  | 0, _, _, _, _, _, hf => absurd hf (Nat.not_lt_zero _)
  | fuel + 1, u, r, hu, hr, hpos, hf => by
    unfold halveWhileEven
    by_cases he : is_even u = true
    · have heven : val u % 2 = 0 := (is_even_iff u).1 he
      have hu1 := shr1_spec hu.1
      have hrr : Canonical (if (!is_even r) = true then add r m else r) := by
        split_ifs
        · exact canonical_add hr hm
        · exact hr
      have hrrv : val (if (!is_even r) = true then add r m else r)
          = if val r % 2 = 1 then val r + val m else val r := by
        by_cases hre : is_even r = true
        · have := (is_even_iff r).1 hre
          simp [hre, this]
        · have h1 : val r % 2 = 1 := by
            have := (is_even_iff r).not.1 hre
            omega
          simp [hre, h1, val_add hr.1 hm.1]
      have hr1 := shr1_spec hrr.1
      obtain ⟨u1, r1, hres, hcu, hcr, hodd, hp1, hle, hgcd, _, hbound, hcong⟩ :=
        halveWhileEven_spec hm fuel (shr1 u) (shr1 (if (!is_even r) = true then add r m else r))
          hu1.2 hr1.2 (by rw [hu1.1]; omega) (by rw [hu1.1]; omega)
      rw [if_pos he]
      refine ⟨u1, r1, hres, hcu, hcr, hodd, hp1, ?_, ?_, ?_, ?_, ?_⟩
      · rw [hu1.1] at hle; omega
      · intro w hw
        rw [hgcd w hw, hu1.1, gcd_half heven hw]
      · intro h; omega
      · intro hlt
        apply hbound
        rw [hr1.1, hrrv]
        split_ifs <;> omega
      · intro hM X hX
        apply hcong hM X
        rw [hr1.1, hrrv, hu1.1]
        exact halve_coefficient hM heven hX
    · have hodd : val u % 2 = 1 := by
        have := (is_even_iff u).not.1 he
        omega
      rw [if_neg he]
      exact ⟨u, r, rfl, hu, hr, hodd, hpos, le_refl _, fun _ _ => rfl, fun _ => ⟨rfl, rfl⟩,
        fun h => h, fun _ _ h => h⟩

theorem modSub_reduced {r s m : BigInt} (hr : Canonical r) (hs : Canonical s)
    (hm : Canonical m) (hrm : val r < val m) (hsm : val s < val m) :
    ∃ d, modSub r s m = .ok d ∧ Canonical d ∧ val d < val m ∧
      val d + val s ≡ val r [MOD val m] ∧ val d = (val r + val m - val s) % val m := by
  by_cases hge : val s ≤ val r
  · obtain ⟨d, hd, hc, hv⟩ := modSub_of_ge hr hs hm hge
    rw [if_neg (by omega)] at hv
    refine ⟨d, hd, hc, by omega, ?_, ?_⟩
    · rw [hv, Nat.sub_add_cancel hge]
    · rw [hv]
      have : val r + val m - val s = (val r - val s) + val m := by omega
      rw [this, Nat.add_mod_right, Nat.mod_eq_of_lt (by omega)]
  · obtain ⟨d, hd, hc, hv⟩ := (modSub_of_lt hr hs hm (by omega)).1 (by omega)
    refine ⟨d, hd, hc, by omega, ?_, ?_⟩
    · have : val d + val s = val r + val m := by omega
      rw [this]
      exact Nat.add_mod_right _ _
    · rw [hv, Nat.mod_eq_of_lt (by omega)]
      omega

theorem modEq_of_sub {M d s r A u v w : Nat} (hd : d + s ≡ r [MOD M])
    (hr : r * A ≡ u [MOD M]) (hs : s * A ≡ v [MOD M]) (hw : w + v = u) :
    d * A ≡ w [MOD M] := by
  apply Nat.ModEq.add_right_cancel' v
  rw [hw]
  have h1 : (d + s) * A ≡ u [MOD M] := (Nat.ModEq.mul_right A hd).trans hr
  rw [Nat.add_mul] at h1
  exact (Nat.ModEq.add_left (d * A) hs).symm.trans h1

theorem modInverseBody_spec {a m : BigInt} (hm : Canonical m) (hodd : val m % 2 = 1)
    {fuel : Nat} {u v r s : BigInt} (hinv : LoopInv a m u v r s) (hu0 : 0 < val u)
    (hfu : val u < fuel) (hfv : val v < fuel) :
    ∃ u2 v2 r2 s2, modInverseBody fuel u v r s m = .ok (u2, v2, r2, s2) ∧
      LoopInv a m u2 v2 r2 s2 ∧ val u2 + val v2 < val u + val v ∧
      val u2 ≤ val u ∧ val v2 ≤ val v := by
  obtain ⟨hcu, hcv, hcr, hcs, hv0, hrm, hsm, hru, hsv, hg, hpar⟩ := hinv
  obtain ⟨u1, r1, h1, hcu1, hcr1, hodd1, hp1, hle1, hgcd1, hsame1, hb1, hcong1⟩ :=
    halveWhileEven_spec hm fuel u r hcu hcr hu0 hfu
  obtain ⟨v1, s1, h2, hcv1, hcs1, hodd2, hp2, hle2, hgcd2, _, hb2, hcong2⟩ :=
    halveWhileEven_spec hm fuel v s hcv hcs hv0 hfv
  have hr1m := hb1 hrm
  have hs1m := hb2 hsm
  have hru1 := hcong1 hodd (val a) hru
  have hsv1 := hcong2 hodd (val a) hsv
  have hg1 : Nat.gcd (val u1) (val v1) = 1 := by
    rw [Nat.gcd_comm, hgcd2 (val u1) hodd1, Nat.gcd_comm]
    rcases hpar with hp | hp
    · rw [(hsame1 hp).1]; exact hg
    · rw [hgcd1 (val v) hp]; exact hg
  unfold modInverseBody
  rw [h1, h2]
  simp only
  by_cases hc : compare u1 v1 ≥ 0
  · have hle : val v1 ≤ val u1 := (compare_ge_iff hcu1 hcv1).1 hc
    obtain ⟨u2, hu2, hu2v, hcu2⟩ := subtract_ok hcu1 hcv1 hle
    obtain ⟨r2, hr2, hcr2, hr2m, hr2c, _⟩ := modSub_reduced hcr1 hcs1 hm hr1m hs1m
    rw [if_pos hc, hu2, hr2]
    refine ⟨u2, v1, r2, s1, rfl, ⟨hcu2, hcv1, hcr2, hcs1, hp2, hr2m, hs1m, ?_, hsv1, ?_,
      Or.inr hodd2⟩, by omega, by omega, hle2⟩
    · exact modEq_of_sub hr2c hru1 hsv1 (by omega)
    · rw [hu2v, Nat.gcd_sub_self_left hle]; exact hg1
  · have hlt : val u1 < val v1 := by
      have := (compare_ge_iff hcu1 hcv1).not.1 hc
      omega
    obtain ⟨v2, hv2, hv2v, hcv2⟩ := subtract_ok hcv1 hcu1 (le_of_lt hlt)
    obtain ⟨s2, hs2, hcs2, hs2m, hs2c, _⟩ := modSub_reduced hcs1 hcr1 hm hs1m hr1m
    rw [if_neg hc, hv2, hs2]
    refine ⟨u1, v2, r1, s2, rfl, ⟨hcu1, hcv2, hcr1, hcs2, by omega, hr1m, hs2m, hru1, ?_, ?_,
      Or.inl hodd1⟩, by omega, hle1, by omega⟩
    · exact modEq_of_sub hs2c hsv1 hru1 (by omega)
    · rw [hv2v, Nat.gcd_sub_self_right (le_of_lt hlt)]; exact hg1

theorem modInverseLoop_spec {a m : BigInt} (hm : Canonical m) (hodd : val m % 2 = 1)
    (fuel : Nat) : ∀ (n : Nat) (u v r s : BigInt), LoopInv a m u v r s →
    val u + val v < n → val u < fuel → val v < fuel →
    ∃ v' s', modInverseLoop fuel n u v r s m = .ok (v', s') ∧ Canonical v' ∧ Canonical s' ∧
      val v' = 1 ∧ val s' < val m ∧ val s' * val a ≡ 1 [MOD val m]
  | 0, _, _, _, _, _, hn, _, _ => absurd hn (Nat.not_lt_zero _)
  | n + 1, u, v, r, s, hinv, hn, hfu, hfv => by
    rw [modInverseLoop_succ]
    by_cases hz : u = []
    · subst hz
      obtain ⟨_, hcv, _, hcs, _, _, hsm, _, hsv, hg, _⟩ := hinv
      have hv1 : val v = 1 := by simpa [val] using hg
      refine ⟨v, s, rfl, hcv, hcs, hv1, hsm, ?_⟩
      rw [hv1] at hsv
      exact hsv
    · have hu0 : 0 < val u :=
        Nat.pos_of_ne_zero (fun h => hz ((val_eq_zero_iff hinv.1).1 h))
      have hnz : (!is_zero u) = true := by
        cases u with
        | nil => exact absurd rfl hz
        | cons _ _ => rfl
      obtain ⟨u2, v2, r2, s2, hb, hinv2, hdec, hle1, hle2⟩ :=
        modInverseBody_spec hm hodd hinv hu0 hfu hfv
      rw [if_pos hnz, hb]
      exact modInverseLoop_spec hm hodd fuel n u2 v2 r2 s2 hinv2 (by omega) (by omega)
        (by omega)

theorem loopInv_init {a m a1 : BigInt} (hm : Canonical m) (hodd : val m % 2 = 1)
    (h1 : 1 < val m) (hco : Nat.gcd (val a) (val m) = 1) (ha1 : Canonical a1)
    (hv : val a1 = val a % val m) :
    LoopInv a m a1 m (ofU64 1) (ofU64 0) ∧ 0 < val a1 := by
  have hg : Nat.gcd (val a1) (val m) = 1 := by
    rw [hv, ← Nat.gcd_rec, Nat.gcd_comm]; exact hco
  have hpos : 0 < val a1 := by
    apply Nat.pos_of_ne_zero
    intro h0
    rw [h0, Nat.gcd_zero_left] at hg
    omega
  refine ⟨⟨ha1, hm, canonical_ofU64 1, canonical_ofU64 0, by omega, ?_, ?_, ?_, ?_, hg,
    Or.inr hodd⟩, hpos⟩
  · rw [ofU64_one, val_singleton]; exact h1
  · rw [ofU64_zero, val_nil]; omega
  · rw [ofU64_one, val_singleton, Nat.one_mul, hv]
    exact (Nat.mod_modEq _ _).symm
  · rw [ofU64_zero, val_nil, Nat.zero_mul]
    show 0 % val m = val m % val m
    rw [Nat.mod_self, Nat.zero_mod]

theorem modInverse_odd_spec {fuel : Nat} {a m : BigInt} (ha : Canonical a) (hm : Canonical m)
    (hodd : val m % 2 = 1) (h1 : 1 < val m) (hco : Nat.gcd (val a) (val m) = 1)
    (hf : val a / val m < fuel) (hf2 : 2 * val m ≤ fuel) :
    ∃ s, modInverse fuel a m = .ok s ∧ Canonical s ∧ val s < val m ∧
      (val a * val s) % val m = 1 := by
  have hm0 : m ≠ [] := by rintro rfl; simp [val] at h1
  have hpos : 0 < val m := by omega
  obtain ⟨a1, hmod, hv, hca1⟩ := mod_spec ha hm hm0 hf
  obtain ⟨hinv, ha1pos⟩ := loopInv_init hm hodd h1 hco hca1 hv
  have ha1lt : val a1 < val m := by rw [hv]; exact Nat.mod_lt _ hpos
  obtain ⟨v', s', hloop, hcv', hcs', hv1, hs'm, hcong⟩ :=
    modInverseLoop_spec hm hodd fuel fuel a1 m (ofU64 1) (ofU64 0) hinv (by omega) (by omega)
      (by omega)
  obtain ⟨s0, hs0, hs0v, hcs0⟩ := mod_spec hcs' hm hm0
    (show val s' / val m < fuel by rw [Nat.div_eq_of_lt hs'm]; omega)
  rw [Nat.mod_eq_of_lt hs'm] at hs0v
  have hz : is_zero m = false := by
    cases m with
    | nil => exact absurd rfl hm0
    | cons _ _ => rfl
  have hz1 : is_zero a1 = false := by
    cases a1 with
    | nil => simp [val] at ha1pos
    | cons _ _ => rfl
  have hcmp : ¬ compare v' (ofU64 1) ≠ 0 := by
    rw [not_not, compare_eq_zero_iff hcv' (canonical_ofU64 1), hv1, ofU64_one, val_singleton]
  refine ⟨s0, ?_, hcs0, by omega, ?_⟩
  · unfold modInverse
    rw [hz, hmod]
    simp only [Bool.false_eq_true, if_false, hz1, hloop]
    rw [if_neg hcmp]
    exact hs0
  · rw [hs0v, Nat.mul_comm]
    have : val s' * val a % val m = 1 % val m := hcong
    rw [this, Nat.mod_eq_of_lt h1]

/-- C11. Canonical-form invariant: the constructor, `from_hex` and `from_decimal` on any
text, and `add`, `subtract` (when it succeeds), `mul`, `shr1`, `shlBits`, `divideByTen`,
`divideWithRemainder` (quotient and remainder), `mod`, `modSafe`, `modFast`, `modAdd`,
`modMul`, `modSub` and `modInverse` (when they return a value; modulus not zero) on
canonical arguments produce canonical values: no most-significant zero limb. -/
theorem canonical_invariant (fuel value k : Nat) (a b m : BigInt) (hex dec : List Char)
    (ha : Canonical a) (hb : Canonical b) (hm : Canonical m) (hm0 : m ≠ [])
    (hf : 2 ^ 32 ≤ fuel) (hfa : val a / val m < fuel) :
    Canonical (ofU64 value) ∧ Canonical (from_hex hex) ∧
      (∃ r, from_decimal dec = .ok r ∧ Canonical r) ∧
      Canonical (add a b) ∧
      (∀ r, subtract a b = .ok r → Canonical r) ∧
      (val b ≤ val a → ∃ r, subtract a b = .ok r ∧ Canonical r) ∧
      (∃ p, mul a b = .ok p ∧ Canonical p) ∧
      Canonical (shr1 a) ∧ Canonical (shlBits a k) ∧ Canonical (divideByTen a) ∧
      (∃ q r, divideWithRemainder a b = .ok (q, r) ∧ Canonical q ∧ Canonical r) ∧
      (∃ r, mod fuel a m = .ok r ∧ Canonical r) ∧
      (∃ r, modSafe fuel a m = .ok r ∧ Canonical r) ∧
      (∃ r, modFast a m = .ok r ∧ Canonical r) ∧
      (∃ r, modAdd fuel a b m = .ok r ∧ Canonical r) ∧
      (∃ r, modMul fuel a b m = .ok r ∧ Canonical r) ∧
      (∀ r, modSub a b m = .ok r → Canonical r) ∧
      (val a < val m → val b < val m → ∃ r, modSub a b m = .ok r ∧ Canonical r) ∧
      (∀ r, modInverse fuel a m = .ok r → Canonical r) ∧
      (val m % 2 = 1 → 1 < val m → Nat.gcd (val a) (val m) = 1 → 2 * val m ≤ fuel →
        ∃ r, modInverse fuel a m = .ok r ∧ Canonical r) := by
  refine ⟨canonical_ofU64 value, (from_hex_spec hex).2, ?_, canonical_add ha hb,
    fun r h => canonical_of_subtract h, ?_, ?_, canonical_shr1 a, canonical_shlBits ha k,
    canonical_divideByTen a, divideWithRemainder_canonical ha hb, ?_, ?_, ?_, ?_, ?_,
    fun r h => canonical_of_modSub h, ?_, fun r h => canonical_of_modInverse ha hm h, ?_⟩
  · obtain ⟨r, hr, hc, _⟩ := from_decimalLoop_spec dec [] canonical_nil
    exact ⟨r, hr, hc⟩
  · intro h
    obtain ⟨r, hr, _, hc⟩ := subtract_ok ha hb h
    exact ⟨r, hr, hc⟩
  · obtain ⟨p, hp, _, hc⟩ := mul_spec ha hb
    exact ⟨p, hp, hc⟩
  · obtain ⟨r, hr, _, hc⟩ := mod_spec ha hm hm0 hfa
    exact ⟨r, hr, hc⟩
  · obtain ⟨r, hr, _, hc⟩ := modSafe_spec ha hm hm0 hf
    exact ⟨r, hr, hc⟩
  · obtain ⟨r, hr, _, hc⟩ := modFast_spec ha hm hm0
    exact ⟨r, hr, hc⟩
  · obtain ⟨r, hr, _, hc⟩ := modSafe_spec (canonical_add ha hb) hm hm0 hf
    exact ⟨r, hr, hc⟩
  · obtain ⟨p, hp, _, hpc⟩ := mul_spec ha hb
    obtain ⟨r, hr, _, hc⟩ := modSafe_spec hpc hm hm0 hf
    exact ⟨r, by simp [modMul, hp, hr], hc⟩
  · intro h1 h2
    obtain ⟨d, hd, hc, _⟩ := modSub_reduced ha hb hm h1 h2
    exact ⟨d, hd, hc⟩
  · intro hodd h1 hco hf2
    obtain ⟨s, hs, hc, _⟩ := modInverse_odd_spec ha hm hodd h1 hco hfa hf2
    exact ⟨s, hs, hc⟩

theorem canonical_invariant_witness :
    Canonical [5, 1] ∧ Canonical [3] ∧ Canonical [7] ∧ ([7] : BigInt) ≠ [] ∧
      2 ^ 32 ≤ 2 ^ 32 ∧ val [5, 1] / val [7] < 2 ^ 32 ∧
      (Canonical (ofU64 18446744073709551615) ∧ Canonical (from_hex ['0', 'x', '0', 'f']) ∧
        (∃ r, from_decimal ['0', '4', '2'] = .ok r ∧ Canonical r) ∧
        Canonical (add [5, 1] [3]) ∧
        (∀ r, subtract [5, 1] [3] = .ok r → Canonical r) ∧
        (val [3] ≤ val [5, 1] → ∃ r, subtract [5, 1] [3] = .ok r ∧ Canonical r) ∧
        (∃ p, mul [5, 1] [3] = .ok p ∧ Canonical p) ∧
        Canonical (shr1 [5, 1]) ∧ Canonical (shlBits [5, 1] 33) ∧
        Canonical (divideByTen [5, 1]) ∧
        (∃ q r, divideWithRemainder [5, 1] [3] = .ok (q, r) ∧ Canonical q ∧ Canonical r) ∧
        (∃ r, mod (2 ^ 32) [5, 1] [7] = .ok r ∧ Canonical r) ∧
        (∃ r, modSafe (2 ^ 32) [5, 1] [7] = .ok r ∧ Canonical r) ∧
        (∃ r, modFast [5, 1] [7] = .ok r ∧ Canonical r) ∧
        (∃ r, modAdd (2 ^ 32) [5, 1] [3] [7] = .ok r ∧ Canonical r) ∧
        (∃ r, modMul (2 ^ 32) [5, 1] [3] [7] = .ok r ∧ Canonical r) ∧
        (∀ r, modSub [5, 1] [3] [7] = .ok r → Canonical r) ∧
        (val [5, 1] < val [7] → val [3] < val [7] →
          ∃ r, modSub [5, 1] [3] [7] = .ok r ∧ Canonical r) ∧
        (∀ r, modInverse (2 ^ 32) [5, 1] [7] = .ok r → Canonical r) ∧
        (val [7] % 2 = 1 → 1 < val [7] → Nat.gcd (val [5, 1]) (val [7]) = 1 →
          2 * val [7] ≤ 2 ^ 32 → ∃ r, modInverse (2 ^ 32) [5, 1] [7] = .ok r ∧ Canonical r)) :=
  ⟨by decide, by decide, by decide, by decide, by decide, by decide,
    canonical_invariant (2 ^ 32) 18446744073709551615 33 [5, 1] [3] [7] ['0', 'x', '0', 'f']
      ['0', '4', '2'] (by decide) (by decide) (by decide) (by decide) (by decide)
      (by decide)⟩

theorem halve_round_spec {a m u r : BigInt} (hm : Canonical m) (hodd : val m % 2 = 1)
    (hu : Canonical u) (hr : Canonical r) (heven : val u % 2 = 0) (hrm : val r < val m)
    (hru : val r * val a ≡ val u [MOD val m]) :
    val (shr1 (if !is_even r then add r m else r)) < val m ∧
      val (shr1 (if !is_even r then add r m else r)) * val a ≡ val (shr1 u) [MOD val m] := by
  have hrr : Canonical (if (!is_even r) = true then add r m else r) := by
    split_ifs
    · exact canonical_add hr hm
    · exact hr
  have hrrv : val (if (!is_even r) = true then add r m else r)
      = if val r % 2 = 1 then val r + val m else val r := by
    by_cases hre : is_even r = true
    · have := (is_even_iff r).1 hre
      simp [hre, this]
    · have h1 : val r % 2 = 1 := by
        have := (is_even_iff r).not.1 hre
        omega
      simp [hre, h1, val_add hr.1 hm.1]
  rw [(shr1_spec hrr.1).1, hrrv, (shr1_spec hu.1).1]
  refine ⟨?_, halve_coefficient hodd heven hru⟩
  split_ifs <;> omega

/-- C20. For canonical odd `m > 1` and canonical `a` with `gcd(a, m) = 1`, with fuel for
`value(a) / value(m)` and for `2 * value(m)` rounds, `modInverse(a, m)` returns a canonical
`s` with `s < m` and `(value(a) * value(s)) mod value(m) = 1`. The loop invariant holds
when the main loop is entered and after every round of its body, and it says that `r` and
`s` are below `m` with `r * a ≡ u` and `s * a ≡ v` modulo `m`; every round of a halving
loop keeps its coefficient below `m` and congruent as well. -/
theorem modInverse_odd_modulus (fuel : Nat) (a m : BigInt) (ha : Canonical a)
    (hm : Canonical m) (hodd : val m % 2 = 1) (h1 : 1 < val m)
    (hco : Nat.gcd (val a) (val m) = 1) (hf : val a / val m < fuel)
    (hf2 : 2 * val m ≤ fuel) :
    (∃ s, modInverse fuel a m = .ok s ∧ Canonical s ∧ val s < val m ∧
      (val a * val s) % val m = 1) ∧
    (∃ a1, mod fuel a m = .ok a1 ∧ a1 ≠ [] ∧ LoopInv a m a1 m (ofU64 1) (ofU64 0)) ∧
    (∀ (n : Nat) (u v r s : BigInt), modInverseLoop fuel (n + 1) u v r s m =
      if !is_zero u then
        match modInverseBody fuel u v r s m with
        | .error e => .error e
        | .ok (u2, v2, r2, s2) => modInverseLoop fuel n u2 v2 r2 s2 m
      else .ok (v, s)) ∧
    (∀ u v r s, LoopInv a m u v r s → u ≠ [] → val u < fuel → val v < fuel →
      ∃ u2 v2 r2 s2, modInverseBody fuel u v r s m = .ok (u2, v2, r2, s2) ∧
        LoopInv a m u2 v2 r2 s2 ∧ val u2 ≤ val u ∧ val v2 ≤ val v) ∧
    (∀ u v r s, LoopInv a m u v r s →
      val r < val m ∧ val s < val m ∧ val r * val a ≡ val u [MOD val m] ∧
        val s * val a ≡ val v [MOD val m]) ∧
    (∀ u r, Canonical u → Canonical r → val u % 2 = 0 → val r < val m →
      val r * val a ≡ val u [MOD val m] →
      val (shr1 (if !is_even r then add r m else r)) < val m ∧
        val (shr1 (if !is_even r then add r m else r)) * val a
          ≡ val (shr1 u) [MOD val m]) := by
  have hm0 : m ≠ [] := by rintro rfl; simp [val] at h1
  refine ⟨modInverse_odd_spec ha hm hodd h1 hco hf hf2, ?_,
    fun n u v r s => modInverseLoop_succ fuel n u v r s m, ?_, ?_,
    fun u r hu hr heven hrm hru => halve_round_spec hm hodd hu hr heven hrm hru⟩
  · obtain ⟨a1, hmod, hv, hca1⟩ := mod_spec ha hm hm0 hf
    obtain ⟨hinv, hpos⟩ := loopInv_init hm hodd h1 hco hca1 hv
    refine ⟨a1, hmod, ?_, hinv⟩
    rintro rfl
    simp [val] at hpos
  · intro u v r s hinv hu hfu hfv
    have hu0 : 0 < val u := Nat.pos_of_ne_zero (fun h => hu ((val_eq_zero_iff hinv.1).1 h))
    obtain ⟨u2, v2, r2, s2, hb, hinv2, _, hle1, hle2⟩ :=
      modInverseBody_spec hm hodd hinv hu0 hfu hfv
    exact ⟨u2, v2, r2, s2, hb, hinv2, hle1, hle2⟩
  · intro u v r s hinv
    obtain ⟨_, _, _, _, _, hrm, hsm, hru, hsv, _⟩ := hinv
    exact ⟨hrm, hsm, hru, hsv⟩

theorem modInverse_odd_modulus_witness :
    Canonical [3] ∧ Canonical [7] ∧ val [7] % 2 = 1 ∧ 1 < val [7] ∧
      Nat.gcd (val [3]) (val [7]) = 1 ∧ val [3] / val [7] < 20 ∧ 2 * val [7] ≤ 20 ∧
      ((∃ s, modInverse 20 [3] [7] = .ok s ∧ Canonical s ∧ val s < val [7] ∧
        (val [3] * val s) % val [7] = 1) ∧
      (∃ a1, mod 20 [3] [7] = .ok a1 ∧ a1 ≠ [] ∧ LoopInv [3] [7] a1 [7] (ofU64 1) (ofU64 0)) ∧
      (∀ (n : Nat) (u v r s : BigInt), modInverseLoop 20 (n + 1) u v r s [7] =
        if !is_zero u then
          match modInverseBody 20 u v r s [7] with
          | .error e => .error e
          | .ok (u2, v2, r2, s2) => modInverseLoop 20 n u2 v2 r2 s2 [7]
        else .ok (v, s)) ∧
      (∀ u v r s, LoopInv [3] [7] u v r s → u ≠ [] → val u < 20 → val v < 20 →
        ∃ u2 v2 r2 s2, modInverseBody 20 u v r s [7] = .ok (u2, v2, r2, s2) ∧
          LoopInv [3] [7] u2 v2 r2 s2 ∧ val u2 ≤ val u ∧ val v2 ≤ val v) ∧
      (∀ u v r s, LoopInv [3] [7] u v r s →
        val r < val [7] ∧ val s < val [7] ∧ val r * val [3] ≡ val u [MOD val [7]] ∧
          val s * val [3] ≡ val v [MOD val [7]]) ∧
      (∀ u r, Canonical u → Canonical r → val u % 2 = 0 → val r < val [7] →
        val r * val [3] ≡ val u [MOD val [7]] →
        val (shr1 (if !is_even r then add r [7] else r)) < val [7] ∧
          val (shr1 (if !is_even r then add r [7] else r)) * val [3]
            ≡ val (shr1 u) [MOD val [7]])) :=
  ⟨by decide, by decide, by decide, by decide, by decide, by decide, by decide,
    modInverse_odd_modulus 20 [3] [7] (by decide) (by decide) (by decide) (by decide)
      (by decide) (by decide) (by decide)⟩

theorem to_decimal_of_multiple_of_ten {x : BigInt} (hx : Canonical x) (hx0 : x ≠ [])
    (h10 : val x % 10 = 0) {fuel : Nat} (hf : val x / 10 < fuel) :
    mod fuel x (ofU64 10) = .ok [] ∧ to_decimal fuel x = .error .outOfBounds := by
  have hten : val (ofU64 10) = 10 := val_ofU64 (by norm_num)
  have hne : ofU64 10 ≠ [] := by decide
  obtain ⟨r, hr, hv, hc⟩ := mod_spec hx (canonical_ofU64 10) hne (by rw [hten]; exact hf)
  have hr0 : r = [] := (val_eq_zero_iff hc).1 (by rw [hv, hten, h10])
  subst hr0
  obtain ⟨n, rfl⟩ : ∃ n, fuel = n + 1 :=
    Nat.exists_eq_succ_of_ne_zero (fun h0 => Nat.not_lt_zero _ (h0 ▸ hf))
  have hz : is_zero x = false := by
    cases x with
    | nil => exact absurd rfl hx0
    | cons _ _ => rfl
  refine ⟨hr, ?_⟩
  unfold to_decimal
  rw [hz]
  simp only [Bool.false_eq_true, if_false]
  rw [to_decimalLoop]
  simp only [hz, Bool.not_false, if_true, hr]
  rfl

/-- C21. At `x = 20` (canonical) the first round of `to_decimal` computes the remainder
`r = mod(20, 10)`, whose limb vector is empty, and reads `r.chunks[0]`: an index outside
the vector. The same happens for every canonical non-zero `x` that is a multiple of ten. -/
theorem to_decimal_missing_limb_read :
    Canonical [20] ∧
      (∀ fuel, 3 ≤ fuel →
        mod fuel [20] (ofU64 10) = .ok [] ∧ to_decimal fuel [20] = .error .outOfBounds) ∧
      (∀ (x : BigInt) (fuel : Nat), Canonical x → x ≠ [] → val x % 10 = 0 →
        val x / 10 < fuel →
        mod fuel x (ofU64 10) = .ok [] ∧ to_decimal fuel x = .error .outOfBounds) := by
  refine ⟨by decide, fun fuel h => ?_, fun x fuel hx hx0 h10 hf =>
    to_decimal_of_multiple_of_ten hx hx0 h10 hf⟩
  exact to_decimal_of_multiple_of_ten (by decide) (by decide) (by decide)
    (by simp [val]; omega)

/-- C22. For canonical `m ≠ 0` and canonical `a`, `b` below `m`, `modSub(a, b, m)` does not
fail - each subtraction inside it has its minuend at least its subtrahend - and returns
the canonical BigInt of value `(value(a) - value(b)) mod value(m)`, which is below `m`. -/
theorem modSub_correct_on_reduced (a b m : BigInt) (ha : Canonical a) (hb : Canonical b)
    (hm : Canonical m) (_hm0 : m ≠ []) (ham : val a < val m) (hbm : val b < val m) :
    ∃ r, modSub a b m = .ok r ∧ Canonical r ∧ val r < val m ∧
      (val r : Int) = ((val a : Int) - (val b : Int)) % (val m : Int) ∧
      val r = (val a + val m - val b) % val m ∧
      (val b ≤ val a → subtract a b = .ok r) ∧
      (val a < val b →
        ∃ d, subtract b a = .ok d ∧ val d ≤ val m ∧ subtract m d = .ok r) := by
  obtain ⟨r, hr, hc, hlt, _, hv⟩ := modSub_reduced ha hb hm ham hbm
  refine ⟨r, hr, hc, hlt, ?_, hv, ?_, ?_⟩
  · by_cases hge : val b ≤ val a
    · have hv' : val r = val a - val b := by
        have : val a + val m - val b = (val a - val b) + val m := by omega
        rw [hv, this, Nat.add_mod_right, Nat.mod_eq_of_lt (by omega)]
      rw [Int.emod_eq_of_lt (by omega) (by omega)]
      omega
    · have hv' : val r = val a + val m - val b := by
        rw [hv, Nat.mod_eq_of_lt (by omega)]
      have e : ((val a : Int) - (val b : Int)) % (val m : Int)
          = ((val a : Int) - (val b : Int) + (val m : Int)) % (val m : Int) := by
        rw [Int.add_emod_self]
      rw [e, Int.emod_eq_of_lt (by omega) (by omega)]
      omega
  · intro hge
    obtain ⟨d, hd, hdv, hdc⟩ := subtract_ok ha hb hge
    obtain ⟨r', hr', hc', hv'⟩ := modSub_of_ge ha hb hm hge
    rw [if_neg (by omega)] at hv'
    have : r' = r := by
      rw [hr] at hr'
      cases hr'
      rfl
    subst this
    rw [hd, canonical_ext hdc hc (by rw [hdv, hv'])]
  · intro hab
    obtain ⟨d, hd, hdv, hdc⟩ := subtract_ok hb ha (le_of_lt hab)
    obtain ⟨e, he, hev, hec⟩ := subtract_ok hm hdc (by omega)
    obtain ⟨r', hr', hc', hv'⟩ := (modSub_of_lt ha hb hm hab).1 (by omega)
    have : r' = r := by
      rw [hr] at hr'
      cases hr'
      rfl
    subst this
    refine ⟨d, hd, by omega, ?_⟩
    rw [he, canonical_ext hec hc (by rw [hev, hdv, hv'])]

theorem modSub_correct_on_reduced_witness :
    Canonical [2] ∧ Canonical [5] ∧ Canonical [7] ∧ ([7] : BigInt) ≠ [] ∧
      val [2] < val [7] ∧ val [5] < val [7] ∧
      ∃ r, modSub [2] [5] [7] = .ok r ∧ Canonical r ∧ val r < val [7] ∧
        (val r : Int) = ((val [2] : Int) - (val [5] : Int)) % (val [7] : Int) ∧
        val r = (val [2] + val [7] - val [5]) % val [7] ∧
        (val [5] ≤ val [2] → subtract [2] [5] = .ok r) ∧
        (val [2] < val [5] →
          ∃ d, subtract [5] [2] = .ok d ∧ val d ≤ val [7] ∧ subtract [7] d = .ok r) :=
  ⟨by decide, by decide, by decide, by decide, by decide, by decide,
    modSub_correct_on_reduced [2] [5] [7] (by decide) (by decide) (by decide) (by decide)
      (by decide) (by decide)⟩

/-! ### divideByTen -/

theorem subtractWhileGEBuffer_fst : ∀ (fuel : Nat) (res buffer m : BigInt),
    res <+: buffer →
    match subtractWhileGE fuel res m with
    | .error e => subtractWhileGEBuffer fuel res buffer m = .error e
    | .ok r => ∃ buffer1, subtractWhileGEBuffer fuel res buffer m = .ok (r, buffer1) ∧
        r <+: buffer1
  | 0, _, _, _, _ => by simp [subtractWhileGE, subtractWhileGEBuffer]
  | fuel + 1, res, buffer, m, hp => by
    rw [subtractWhileGE, subtractWhileGEBuffer]
    by_cases hge : compare res m ≥ 0
    · rw [if_pos hge, if_pos hge]
      cases hs : subtract res m with
      | error e => simp
      | ok res1 =>
        simp only
        have hres1 : res1 = normalize (subtractLoop res m 0) := by
          unfold subtract at hs
          split_ifs at hs
          cases hs
          rfl
        exact subtractWhileGEBuffer_fst fuel res1 (subtractLoop res m 0) m
          (by rw [hres1]; exact List.rdropWhile_prefix _ _)
    · rw [if_neg hge, if_neg hge]
      exact ⟨buffer, rfl, hp⟩

theorem addWhileNegativeBuffer_fst : ∀ (fuel : Nat) (res buffer m : BigInt),
    res <+: buffer →
    match addWhileNegative fuel res m with
    | .error e => addWhileNegativeBuffer fuel res buffer m = .error e
    | .ok r => ∃ buffer1, addWhileNegativeBuffer fuel res buffer m = .ok (r, buffer1) ∧
        r <+: buffer1
  | 0, _, _, _, _ => by simp [addWhileNegative, addWhileNegativeBuffer]
  | fuel + 1, res, buffer, m, hp => by
    rw [addWhileNegative, addWhileNegativeBuffer]
    by_cases hlt : compare res (ofU64 0) < 0
    · rw [if_pos hlt, if_pos hlt]
      exact addWhileNegativeBuffer_fst fuel (add res m) (add res m) m (List.prefix_refl _)
    · rw [if_neg hlt, if_neg hlt]
      exact ⟨buffer, rfl, hp⟩

theorem modBuffer_fst (fuel : Nat) (a m : BigInt) :
    match mod fuel a m with
    | .error e => modBuffer fuel a m = .error e
    | .ok r => ∃ buffer, modBuffer fuel a m = .ok (r, buffer) ∧ r <+: buffer := by
  have h1 := subtractWhileGEBuffer_fst fuel a a m (List.prefix_refl _)
  unfold mod modBuffer
  cases hs : subtractWhileGE fuel a m with
  | error e =>
    rw [hs] at h1
    simp only at h1
    rw [h1]
  | ok res =>
    rw [hs] at h1
    obtain ⟨buffer1, hb, hp⟩ := h1
    rw [hb]
    exact addWhileNegativeBuffer_fst fuel res buffer1 m hp

theorem to_decimalBufferLoop_of_ok (fuel : Nat) : ∀ (n : Nat) (temp : BigInt)
    (s t : List Char), to_decimalLoop fuel n temp s = .ok t →
      to_decimalBufferLoop fuel n temp s = .ok t
  | 0, _, _, _, h => by cases h
  | n + 1, temp, s, t, h => by
    rw [to_decimalLoop] at h
    rw [to_decimalBufferLoop]
    by_cases hz : (!is_zero temp) = true
    · rw [if_pos hz] at h ⊢
      have hb := modBuffer_fst fuel temp (ofU64 10)
      cases hm : mod fuel temp (ofU64 10) with
      | error e => rw [hm] at h; cases h
      | ok r =>
        rw [hm] at h hb
        obtain ⟨buffer, hbuf, hp⟩ := hb
        rw [hbuf]
        cases r with
        | nil => cases h
        | cons r0 rs =>
          obtain ⟨tl, rfl⟩ := hp
          exact to_decimalBufferLoop_of_ok fuel n _ _ t h
    · rw [if_neg hz] at h ⊢
      exact h

theorem to_decimalBuffer_of_ok {fuel : Nat} {x : BigInt} {t : List Char}
    (h : to_decimal fuel x = .ok t) : to_decimalBuffer fuel x = .ok t := by
  unfold to_decimal at h
  unfold to_decimalBuffer
  by_cases hz : is_zero x = true
  · rw [if_pos hz] at h ⊢
    exact h
  · rw [if_neg hz] at h ⊢
    obtain ⟨u, hu, rfl⟩ := except_map_ok h
    rw [to_decimalBufferLoop_of_ok fuel fuel x [] u hu]
    rfl

/-- C4. At `a = 10`, `b = 0`, `m = 3` (canonical, `m ≠ 0`, `a` not reduced) `modSub(a, b, m)`
returns 7: it is not below `m`, and it is not `(a - b) % m = 1`, the value that the comment
on `modSub` in the source names. On the same operands `modAdd` returns the reduced value 1,
and with the operands exchanged `modSub(0, 10, 3)` fails with the underflow error of
`subtract`. -/
theorem modSub_unreduced_operand :
    Canonical [10] ∧ Canonical [] ∧ Canonical [3] ∧ [3] ≠ ([] : BigInt) ∧
      modSub [10] [] [3] = .ok [7] ∧ ¬ val [7] < val [3] ∧
      (val [10] - val []) % val [3] = 1 ∧
      (∀ fuel, 5 ≤ fuel → modAdd fuel [10] [] [3] = .ok [1]) ∧
      modSub [] [10] [3] = .error .underflow := by
  refine ⟨by decide, by decide, by decide, by decide, by decide, by decide, by decide, ?_,
    by decide⟩
  intro fuel h
  obtain ⟨k, rfl⟩ := Nat.exists_eq_add_of_le' h
  rfl

end BigInt
